import Mathlib

/-!
# HashFinder: FNV-1a digit hashing and the batch search

A shallow embedding of `src/src/hashfinder.cpp` and `src/include/hashfinder.h`.

Machine integers are natural numbers; `uint32_t` and `uint64_t` arithmetic is
reduced modulo `2^32` and `2^64` where the source can wrap.  Arrays of fixed
size are lists (the digit buffer) or functions on `Fin 16` (the sixteen SIMD
lanes).  A read or write outside an array and a loop that does not stop are
both `none`.
-/

namespace HashFinder

/-! ## Scalar hash: `fnv1a_hash_digits` -/

/-- The FNV offset basis `0x811c9dc5`, the initial value of `hash`. -/
def FNV_OFFSET_BASIS : Nat := 0x811c9dc5

/-- The FNV prime `0x1000193`. -/
def FNV_PRIME : Nat := 0x1000193

/-- One round of the hashing loop on a `uint32_t`:
`hash ^= byte; hash *= 0x1000193;`. -/
def fnv_round (hash byte : Nat) : Nat :=
  ((hash ^^^ byte) * FNV_PRIME) % 2 ^ 32

/-- The loop `do { digits[digit_count++] = '0' + (temp % 10); temp /= 10; } while (temp > 0);`
on the buffer `char digits[20]`.  A write at an index that is not below 20
is an overrun and yields `none`; so does running out of `fuel`. -/
def extract_digits : Nat → Nat → List Nat → Nat → Option (List Nat × Nat)
  | 0, _, _, _ => none
  | fuel + 1, temp, digits, digit_count =>
    if digit_count < 20 then
      let digits1 := digits.set digit_count (48 + temp % 10)
      let temp1 := temp / 10
      if temp1 > 0 then extract_digits fuel temp1 digits1 (digit_count + 1)
      else some (digits1, digit_count + 1)
    else none

/-- The loop `for (int i = digit_count - 1; i >= 0; i--) { hash ^= static_cast<uint8_t>(digits[i]); hash *= 0x1000193; }`;
the first argument is `i + 1`. -/
def hash_digits_desc : Nat → List Nat → Nat → Nat
  | 0, _, hash => hash
  | i + 1, digits, hash =>
    hash_digits_desc i digits (fnv_round hash (digits.getD i 0 % 256))

/-- The function `fnv1a_hash_digits(uint64_t number)`.  The do-while loop
divides `temp` by ten each round, so `number + 1` rounds of fuel always
suffice; `none` can only mean that the buffer was overrun. -/
def fnv1a_hash_digits (number : Nat) : Option Nat :=
  match extract_digits (number + 1) number (List.replicate 20 0) 0 with
  | none => none
  | some (digits, digit_count) =>
    some (hash_digits_desc digit_count digits FNV_OFFSET_BASIS)

/-- The FNV-1a fold of the specification over a byte sequence:
start from `0x811c9dc5`, and for each byte `d` set
`hash = ((hash XOR d) * 0x01000193) mod 2^32`. -/
def fnv1a_fold (bytes : List Nat) : Nat :=
  bytes.foldl (fun hash d => ((hash ^^^ d) * 0x01000193) % 2 ^ 32) 0x811c9dc5

/-- The ASCII codes of the decimal digits of `n`, most significant first. -/
def ascii_decimal (n : Nat) : List Nat :=
  (Nat.toDigits 10 n).map Char.toNat

/-! ## Vector hash: `AVX512Hasher::hash_batch` -/

/-- The intrinsic `_mm512_set1_epi32`: the same value in all sixteen lanes. -/
def mm512_set1_epi32 (a : Nat) : Fin 16 → Nat := fun _ => a

/-- The intrinsic `_mm512_setzero_si512`. -/
def mm512_setzero_si512 : Fin 16 → Nat := fun _ => 0

/-- The intrinsic `_mm512_cmpneq_epi32_mask`: bit `i` of the mask is set
when the lanes differ. -/
def mm512_cmpneq_epi32_mask (a b : Fin 16 → Nat) : Fin 16 → Bool :=
  fun i => a i != b i

/-- The intrinsic `_mm512_mask_xor_epi32(src, k, a, b)`: lane `i` is
`a[i] ^ b[i]` where the mask bit is set and `src[i]` elsewhere. -/
def mm512_mask_xor_epi32 (src : Fin 16 → Nat) (k : Fin 16 → Bool)
    (a b : Fin 16 → Nat) : Fin 16 → Nat :=
  fun i => if k i then a i ^^^ b i else src i

/-- The intrinsic `_mm512_mask_mullo_epi32(src, k, a, b)`: lane `i` is the
low 32 bits of `a[i] * b[i]` where the mask bit is set and `src[i]`
elsewhere. -/
def mm512_mask_mullo_epi32 (src : Fin 16 → Nat) (k : Fin 16 → Bool)
    (a b : Fin 16 → Nat) : Fin 16 → Nat :=
  fun i => if k i then (a i * b i) % 2 ^ 32 else src i

/-- The loop `do { digits++; temp /= 10; } while (temp > 0);` of `hash_batch`. -/
def count_digits : Nat → Nat → Nat → Option Nat
  | 0, _, _ => none
  | fuel + 1, temp, digits =>
    let digits1 := digits + 1
    let temp1 := temp / 10
    if temp1 > 0 then count_digits fuel temp1 digits1 else some digits1

/-- The loop `for (const auto& num : numbers)` that computes `max_digits`. -/
def max_digits_loop : List Nat → Nat → Option Nat
  | [], max_digits => some max_digits
  | num :: rest, max_digits =>
    match count_digits (num + 1) num 0 with
    | none => none
    | some digits => max_digits_loop rest (max max_digits digits)

/-- The loop `for (int j = 0; j < digit_pos; j++) temp /= 10;`. -/
def div10_loop : Nat → Nat → Nat
  | 0, temp => temp
  | j + 1, temp => div10_loop j (temp / 10)

/-- The array `digit_array` filled for one digit position:
`digit_array[i] = (temp > 0) ? ('0' + (temp % 10)) : 0`. -/
def digit_array (numbers : Fin 16 → Nat) (digit_pos : Nat) : Fin 16 → Nat :=
  fun i =>
    let temp := div10_loop digit_pos (numbers i)
    if temp > 0 then 48 + temp % 10 else 0

/-- The loop `for (int digit_pos = max_digits - 1; digit_pos >= 0; digit_pos--)`;
the first argument is `digit_pos + 1`. -/
def hash_positions : Nat → (Fin 16 → Nat) → (Fin 16 → Nat) → (Fin 16 → Nat)
  | 0, _, hashes => hashes
  | digit_pos + 1, numbers, hashes =>
    let digits := digit_array numbers digit_pos
    let non_zero_mask := mm512_cmpneq_epi32_mask digits mm512_setzero_si512
    let hashes1 := mm512_mask_xor_epi32 hashes non_zero_mask hashes digits
    let hashes2 := mm512_mask_mullo_epi32 hashes1 non_zero_mask hashes1
      (mm512_set1_epi32 FNV_PRIME)
    hash_positions digit_pos numbers hashes2

/-- The method `AVX512Hasher::hash_batch`. -/
def hash_batch (numbers : Fin 16 → Nat) : Option (Fin 16 → Nat) :=
  match max_digits_loop (List.ofFn numbers) 0 with
  | none => none
  | some max_digits =>
    some (hash_positions max_digits numbers (mm512_set1_epi32 FNV_OFFSET_BASIS))

/-! ## `format_digits` -/

/-- The library function `std::to_string` on an unsigned integer: the
decimal digits, most significant first, without leading zeros. -/
def to_string (number : Nat) : String := Nat.repr number

/-- The loop `while (static_cast<int>(result.length()) < width) { result = "0" + result; }`. -/
def pad_loop : Nat → String → Int → Option String
  | 0, _, _ => none
  | fuel + 1, result, width =>
    if (result.length : Int) < width then pad_loop fuel ("0" ++ result) width
    else some result

/-- The function `format_digits(uint64_t number, int width = 9)`.  Each round
of the loop makes `result` longer, so `width + 1` rounds of fuel suffice. -/
def format_digits (number : Nat) (width : Int := 9) : Option String :=
  pad_loop (width.toNat + 1) (to_string number) width

/-- Reading a string of decimal digits back as a number, most significant
digit first. -/
def read_decimal (s : String) : Nat :=
  s.data.foldl (fun acc c => 10 * acc + (c.toNat - 48)) 0

/-! ## The search: `find_hash_match` -/

/-- The struct `Config`. -/
structure Config where
  start_range : Nat := 0
  end_range : Nat := 1000000000
  progress_interval_ms : Nat := 2000
  use_all_threads : Bool := true
  thread_count : Nat := 0

/-- The struct `Result`. -/
structure Result where
  found : Bool := false
  value : Nat := 0
  digits : String := ""
  search_time_ms : Nat := 0
  total_checked : Nat := 0
deriving DecidableEq

/-- The three atomics shared by the workers: `found`, `result_value` and
`progress_counter`. -/
structure SearchState where
  found : Bool := false
  result_value : Nat := 0
  progress_counter : Nat := 0
deriving DecidableEq

/-- What the search takes from the machine it runs on: register `EBX` of
`__cpuid(cpui, 7)`, `std::thread::hardware_concurrency()`, the order in
which `std::for_each(std::execution::par_unseq, ...)` hands the batches to
the lambda, and the time measured between `start_time` and `end_time`. -/
structure Host where
  cpui1 : Nat
  hardware_concurrency : Nat
  schedule : List Nat → List Nat
  duration_ms : Nat

/-- The function `is_avx512_available`: bit 16 of `cpui[1]`. -/
def is_avx512_available (host : Host) : Bool :=
  (host.cpui1 &&& (1 <<< 16)) != 0

/-- The loop `for (uint64_t i = config.start_range; i < config.end_range; i += batch_size) batch_starts.push_back(i);`
with `i` a `uint64_t`; `none` when the fuel runs out. -/
def batch_starts_loop : Nat → Nat → Nat → List Nat → Option (List Nat)
  | 0, _, _, _ => none
  | fuel + 1, i, end_range, batch_starts =>
    if i < end_range then
      batch_starts_loop fuel ((i + 16) % 2 ^ 64) end_range (batch_starts ++ [i])
    else some batch_starts

/-- The loop that prepares a batch:
`batch[i] = batch_start + i; if (batch[i] >= config.end_range) batch[i] = config.end_range - 1;`. -/
def prepare_batch (config : Config) (batch_start : Nat) : Fin 16 → Nat :=
  fun i =>
    let b := (batch_start + i.val) % 2 ^ 64
    if b ≥ config.end_range then (config.end_range + 2 ^ 64 - 1) % 2 ^ 64 else b

/-- The loop that checks the results of a batch, from the lanes still to
visit.  The flag of the result is true when the lambda returned from inside
the loop (after `result_value.store`), false when the loop ended or broke.
`found.exchange(true)` sets the flag and yields its old value. -/
def check_results (target_hash : Nat) (config : Config) (batch_start : Nat)
    (hashes : Fin 16 → Nat) : List (Fin 16) → SearchState → SearchState × Bool
  | [], s => (s, false)
  | i :: rest, s =>
    if (batch_start + i.val) % 2 ^ 64 ≥ config.end_range then (s, false)
    else if hashes i == target_hash then
      let old := s.found
      let s1 := { s with found := true }
      if !old then
        ({ s1 with result_value := (batch_start + i.val) % 2 ^ 64 }, true)
      else check_results target_hash config batch_start hashes rest s1
    else check_results target_hash config batch_start hashes rest s

/-- The lambda that `std::for_each` runs on one batch start, as a step on
the shared state. -/
def process_batch (target_hash : Nat) (config : Config) (s : SearchState)
    (batch_start : Nat) : Option SearchState :=
  if s.found then some s
  else
    match hash_batch (prepare_batch config batch_start) with
    | none => none
    | some hashes =>
      match check_results target_hash config batch_start hashes (List.finRange 16) s with
      | (s1, true) => some s1
      | (s1, false) => some { s1 with progress_counter := batch_start }

/-- The call of `std::for_each` over the batch starts in the order the host
hands them out. -/
def run_batches (target_hash : Nat) (config : Config) (order : List Nat)
    (s : SearchState) : Option SearchState :=
  order.foldlM (process_batch target_hash config) s

/-- The part of `find_hash_match` that fills the result from the final
values of the atomics. -/
def fill_result (host : Host) (target_hash : Nat) (s : SearchState) : Option Result :=
  let result : Result :=
    { search_time_ms := host.duration_ms, total_checked := s.progress_counter }
  let final_value := s.result_value
  if final_value > 0 then
    (format_digits final_value).map fun digits =>
      { result with found := true, value := final_value, digits := digits }
  else
    match fnv1a_hash_digits 0 with
    | none => none
    | some hash0 =>
      if final_value == 0 && hash0 == target_hash then
        (format_digits final_value).map fun digits =>
          { result with found := true, value := final_value, digits := digits }
      else some result

/-- The function `find_hash_match`.  The progress thread only reads the
atomics and calls the callback; it does not take part in the result and is
left out.  `thread_count` is computed as in the source, which does not use
it afterwards. -/
def find_hash_match (host : Host) (fuel : Nat) (target_hash : Nat)
    (config : Config) : Option Result :=
  if !is_avx512_available host then some {}
  else
    let _thread_count :=
      if config.use_all_threads then host.hardware_concurrency
      else if config.thread_count > 0 then config.thread_count
      else host.hardware_concurrency
    match batch_starts_loop fuel config.start_range config.end_range [] with
    | none => none
    | some batch_starts =>
      match run_batches target_hash config (host.schedule batch_starts) {} with
      | none => none
      | some s => fill_result host target_hash s

/-! ## The lambda seen step by step -/

/-- The lambda with the object `hasher` as a parameter; the call
`hasher.hash_batch(batch)` is its only use.  `process_batch` is this function
at `hash_batch`. -/
def process_batch_with (hasher : (Fin 16 → Nat) → Option (Fin 16 → Nat))
    (target_hash : Nat) (config : Config) (s : SearchState)
    (batch_start : Nat) : Option SearchState :=
  if s.found then some s
  else
    match hasher (prepare_batch config batch_start) with
    | none => none
    | some hashes =>
      match check_results target_hash config batch_start hashes (List.finRange 16) s with
      | (s1, true) => some s1
      | (s1, false) => some { s1 with progress_counter := batch_start }

/-- The values of the atomics after each call of the lambda, for the batch
starts taken in the given order. -/
def run_trace (target_hash : Nat) (config : Config) :
    List Nat → SearchState → Option (List SearchState)
  | [], _ => some []
  | batch_start :: rest, s =>
    match process_batch target_hash config s batch_start with
    | none => none
    | some s1 => (run_trace target_hash config rest s1).map (fun t => s1 :: t)

/-- The lane values that pass the guard
`if (batch_start + i >= config.end_range) break;` of the checking loop, in
the order of the lanes: the values whose hash the loop compares with the
target when it does not return before. -/
def guarded_lanes (config : Config) (batch_start : Nat) : List (Fin 16) → List Nat
  | [] => []
  | i :: rest =>
    if (batch_start + i.val) % 2 ^ 64 ≥ config.end_range then []
    else (batch_start + i.val) % 2 ^ 64 :: guarded_lanes config batch_start rest

/-! ## The lanes that are compared -/

/-- Where one call of the lambda stands between two of its atomic
operations: before `found.load()`; inside the checking loop with the hashes
of its batch and the lanes still to visit; after `found.exchange(true)` gave
false and before `result_value.store`; returned. -/
inductive Worker where
  | ready (batch_start : Nat)
  | checking (batch_start : Nat) (hashes : Fin 16 → Nat) (lanes : List (Fin 16))
  | storing (batch_start : Nat) (value : Nat)
  | done

/-- What one step of a worker did: returned at `if (found.load()) return;`;
loaded `found` as false, prepared and hashed its batch; compared a lane that
does not match; ran `found.exchange(true)` with the given old value; ran
`result_value.store`; ran `progress_counter.store`; nothing (the worker had
returned already). -/
inductive Event where
  | skipped (batch_start : Nat)
  | hashed (batch_start : Nat)
  | compared (batch_start : Nat)
  | exchanged (batch_start : Nat) (old : Bool)
  | result_stored (batch_start : Nat) (value : Nat)
  | progress_stored (batch_start : Nat)
  | idle
deriving DecidableEq

/-- Whether the worker stands between its successful exchange and its
`result_value.store`. -/
def Worker.is_storing : Worker → Bool
  | Worker.storing _ _ => true
  | _ => false

/-- Whether the event is an exchange that found `found` false, the step
that turns it true. -/
def Event.is_claim : Event → Bool
  | Event.exchanged _ false => true
  | _ => false

/-- Whether the event is a `result_value.store`. -/
def Event.is_result_store : Event → Bool
  | Event.result_stored _ _ => true
  | _ => false

/-- One step of one worker on the shared atomics: the code of the lambda up
to and including its next atomic operation (`found.load`, `found.exchange`,
`result_value.store` or `progress_counter.store`), or the comparison of one
lane that does not match. -/
def worker_step (target_hash : Nat) (config : Config) (s : SearchState) :
    Worker → Option (SearchState × Worker × Event)
  | Worker.ready batch_start =>
    if s.found then some (s, Worker.done, Event.skipped batch_start)
    else
      match hash_batch (prepare_batch config batch_start) with
      | none => none
      | some hashes =>
        some (s, Worker.checking batch_start hashes (List.finRange 16),
          Event.hashed batch_start)
  | Worker.checking batch_start _ [] =>
    some ({ s with progress_counter := batch_start }, Worker.done,
      Event.progress_stored batch_start)
  | Worker.checking batch_start hashes (i :: rest) =>
    if (batch_start + i.val) % 2 ^ 64 ≥ config.end_range then
      some ({ s with progress_counter := batch_start }, Worker.done,
        Event.progress_stored batch_start)
    else if hashes i == target_hash then
      let old := s.found
      some ({ s with found := true },
        if !old then Worker.storing batch_start ((batch_start + i.val) % 2 ^ 64)
        else Worker.checking batch_start hashes rest,
        Event.exchanged batch_start old)
    else some (s, Worker.checking batch_start hashes rest, Event.compared batch_start)
  | Worker.storing batch_start value =>
    some ({ s with result_value := value }, Worker.done,
      Event.result_stored batch_start value)
  | Worker.done => some (s, Worker.done, Event.idle)

/-- One worker run alone for a number of steps. -/
def worker_run (target_hash : Nat) (config : Config) :
    Nat → SearchState → Worker → Option (SearchState × Worker)
  | 0, s, w => some (s, w)
  | n + 1, s, w =>
    match worker_step target_hash config s w with
    | none => none
    | some (s1, w1, _) => worker_run target_hash config n s1 w1

/-- The shared atomics together with one worker for each batch start. -/
structure System where
  shared : SearchState
  workers : List Worker

/-- The system when `std::for_each` starts: the atomics at their initial
values and every batch still to be entered. -/
def initial_system (batch_starts : List Nat) : System :=
  { shared := {}, workers := batch_starts.map Worker.ready }

/-- One step of the system: the worker with index `k` takes its next step;
an index without a worker does nothing. -/
def system_step (target_hash : Nat) (config : Config) (k : Nat) (sys : System) :
    Option (System × Event) :=
  match sys.workers.get? k with
  | none => some (sys, Event.idle)
  | some w =>
    match worker_step target_hash config sys.shared w with
    | none => none
    | some (s1, w1, ev) => some ({ shared := s1, workers := sys.workers.set k w1 }, ev)

/-- An execution of the parallel loop: the workers take their steps in the
order in which the schedule names them, in any interleaving.  The result is
the final system and the events of the steps. -/
def run_schedule (target_hash : Nat) (config : Config) :
    List Nat → System → Option (System × List Event)
  | [], sys => some (sys, [])
  | k :: rest, sys =>
    match system_step target_hash config k sys with
    | none => none
    | some (sys1, ev) =>
      match run_schedule target_hash config rest sys1 with
      | none => none
      | some (sys2, evs) => some (sys2, ev :: evs)

/-- The number of workers that stand before their `result_value.store`,
plus one while `found` is still false: the stores of `result_value` that
can still happen. -/
def stores_left (sys : System) : Nat :=
  sys.workers.countP Worker.is_storing + (if sys.shared.found then 0 else 1)

/-! ## Closed forms used in the proofs -/

/-- Folding the ASCII decimal digits of `n`, most significant first, into the
value `h` with the step `g`; nothing is folded for `n = 0`.  `Nat.digits` lists the digits least
significant first, so the fold runs from the right. -/
def digits_fold_with (g : Nat → Nat → Nat) (h n : Nat) : Nat :=
  (Nat.digits 10 n).foldr (fun d acc => g acc (48 + d)) h

/-- The fold of the decimal digits of `n` with the FNV-1a round. -/
def digits_fold (h n : Nat) : Nat := digits_fold_with fnv_round h n

/-- The hash that one lane of `hash_batch` holds for the value `n`. -/
def lane_hash (n : Nat) : Nat := digits_fold FNV_OFFSET_BASIS n

/-- The batch starts of a range in closed form: `start_range + 16 * k` for
`k` below the number of batches, the range size divided by 16 and rounded
up. -/
def batch_starts_list (config : Config) : List Nat :=
  (List.range ((config.end_range - config.start_range + 15) / 16)).map
    (fun k => config.start_range + 16 * k)

/-! ## The scalar hash -/

theorem digits_fold_with_zero (g : Nat → Nat → Nat) (h : Nat) :
    digits_fold_with g h 0 = h := by
  simp [digits_fold_with]

theorem digits_fold_with_pos (g : Nat → Nat → Nat) (h n : Nat) (hn : 0 < n) :
    digits_fold_with g h n = g (digits_fold_with g h (n / 10)) (48 + n % 10) := by
  unfold digits_fold_with
  rw [Nat.digits_def' (by norm_num) hn]
  rfl

theorem digits_fold_zero (h : Nat) : digits_fold h 0 = h :=
  digits_fold_with_zero fnv_round h

theorem digits_fold_pos (h n : Nat) (hn : 0 < n) :
    digits_fold h n = fnv_round (digits_fold h (n / 10)) (48 + n % 10) :=
  digits_fold_with_pos fnv_round h n hn

theorem hash_digits_desc_congr (digits1 digits2 : List Nat) :
    ∀ (k h : Nat), (∀ j, j < k → digits1.getD j 0 = digits2.getD j 0) →
      hash_digits_desc k digits1 h = hash_digits_desc k digits2 h := by
  intro k
  induction k with
  | zero => intro h _; rfl
  | succ k ih =>
    intro h hk
    simp only [hash_digits_desc]
    rw [hk k (Nat.lt_succ_self k)]
    exact ih _ (fun j hj => hk j (Nat.lt_succ_of_lt hj))

theorem extract_digits_spec :
    ∀ (fuel temp : Nat) (digits : List Nat) (dc : Nat),
      temp < fuel → dc < 20 → temp < 10 ^ (20 - dc) → digits.length = 20 →
      ∃ digits1 dc1, extract_digits fuel temp digits dc = some (digits1, dc1) ∧
        digits1.length = 20 ∧ dc1 ≤ 20 ∧
        (∀ j, j < dc → digits1.getD j 0 = digits.getD j 0) ∧
        ∀ h, hash_digits_desc dc1 digits1 h =
          hash_digits_desc dc digits1
            (fnv_round (digits_fold h (temp / 10)) (48 + temp % 10)) := by
  intro fuel
  induction fuel with
  | zero => intro temp _ _ h; omega
  | succ fuel ih =>
    intro temp digits dc hfuel hdc hlt hlen
    have hset : (digits.set dc (48 + temp % 10)).length = 20 := by simp [hlen]
    have hget : (digits.set dc (48 + temp % 10)).getD dc 0 = 48 + temp % 10 := by
      simp [List.getD_eq_getElem?_getD, hlen, hdc]
    have hold : ∀ j, j < dc →
        (digits.set dc (48 + temp % 10)).getD j 0 = digits.getD j 0 := by
      intro j hj
      have hne : dc ≠ j := by omega
      simp [List.getD_eq_getElem?_getD, List.getElem?_set_ne hne]
    by_cases hpos : temp / 10 > 0
    · have hdc1 : dc + 1 < 20 := by
        by_contra hcon
        have h19 : dc = 19 := by omega
        subst h19
        norm_num at hlt
        omega
      have hlt1 : temp / 10 < 10 ^ (20 - (dc + 1)) := by
        have hsplit : 10 ^ (20 - dc) = 10 ^ (20 - (dc + 1)) * 10 := by
          rw [← pow_succ]; congr 1; omega
        rw [hsplit] at hlt
        exact Nat.div_lt_of_lt_mul (by rw [Nat.mul_comm]; exact hlt)
      obtain ⟨d1, c1, hrun, hl1, hc1, hkeep, hhash⟩ :=
        ih (temp / 10) (digits.set dc (48 + temp % 10)) (dc + 1) (by omega) hdc1 hlt1 hset
      refine ⟨d1, c1, ?_, hl1, hc1, ?_, ?_⟩
      · simp only [extract_digits, hdc, if_true, hpos]
        exact hrun
      · intro j hj
        rw [hkeep j (by omega), hold j hj]
      · intro h
        rw [hhash h]
        simp only [hash_digits_desc]
        rw [hkeep dc (by omega), hget, ← digits_fold_pos h (temp / 10) hpos]
        have hbyte : (48 + temp % 10) % 256 = 48 + temp % 10 := by omega
        rw [hbyte]
    · have hz : temp / 10 = 0 := by omega
      refine ⟨digits.set dc (48 + temp % 10), dc + 1, ?_, hset, by omega, hold, ?_⟩
      · simp [extract_digits, hdc, hz]
      · intro h
        simp only [hash_digits_desc]
        rw [hget, hz, digits_fold_zero]
        have hbyte : (48 + temp % 10) % 256 = 48 + temp % 10 := by omega
        rw [hbyte]

/-- The scalar hash in closed form: one round for the last digit on top of
the fold of the digits before it. -/
theorem fnv1a_hash_digits_eq (n : Nat) (hn : n < 2 ^ 64) :
    fnv1a_hash_digits n =
      some (fnv_round (digits_fold FNV_OFFSET_BASIS (n / 10)) (48 + n % 10)) := by
  have hlt : n < 10 ^ (20 - 0) := by
    have : (2 : Nat) ^ 64 < 10 ^ 20 := by norm_num
    exact lt_trans hn this
  obtain ⟨d1, c1, hrun, _, _, _, hhash⟩ :=
    extract_digits_spec (n + 1) n (List.replicate 20 0) 0 (Nat.lt_succ_self n)
      (by norm_num) hlt (by simp)
  unfold fnv1a_hash_digits
  rw [hrun]
  simp only []
  rw [hhash]
  rfl

theorem fnv1a_hash_digits_pos (n : Nat) (hn : n < 2 ^ 64) (hpos : 0 < n) :
    fnv1a_hash_digits n = some (lane_hash n) := by
  rw [fnv1a_hash_digits_eq n hn, lane_hash, digits_fold_pos _ n hpos]

theorem digitChar_toNat (d : Nat) (hd : d < 10) : (Nat.digitChar d).toNat = 48 + d := by
  interval_cases d <;> rfl

theorem toDigitsCore_fold (g : Nat → Nat → Nat) :
    ∀ (fuel n : Nat) (acc : List Char) (h : Nat), n < fuel →
      ((Nat.toDigitsCore 10 fuel n acc).map Char.toNat).foldl g h =
        (acc.map Char.toNat).foldl g
          (g (digits_fold_with g h (n / 10)) (48 + n % 10)) := by
  intro fuel
  induction fuel with
  | zero => intro n _ h; omega
  | succ fuel ih =>
    intro n acc h hfuel
    have hd : (Nat.digitChar (n % 10)).toNat = 48 + n % 10 :=
      digitChar_toNat _ (Nat.mod_lt _ (by norm_num))
    by_cases hz : n / 10 = 0
    · simp [Nat.toDigitsCore, hz, hd, digits_fold_with_zero]
    · have hpos : 0 < n / 10 := Nat.pos_of_ne_zero hz
      simp only [Nat.toDigitsCore, hz, if_false]
      rw [ih (n / 10) _ h (by omega)]
      simp only [List.map_cons, List.foldl_cons, hd]
      rw [← digits_fold_with_pos g h (n / 10) hpos]

theorem fnv1a_fold_ascii_decimal (n : Nat) :
    fnv1a_fold (ascii_decimal n) =
      fnv_round (digits_fold FNV_OFFSET_BASIS (n / 10)) (48 + n % 10) := by
  have h := toDigitsCore_fold fnv_round (n + 1) n [] FNV_OFFSET_BASIS (Nat.lt_succ_self n)
  simpa [fnv1a_fold, ascii_decimal, Nat.toDigits] using h

/-- C1: for every 64-bit unsigned `n`, `fnv1a_hash_digits n` returns (the
20-byte buffer is not overrun) and equals the 32-bit FNV-1a fold over the
ASCII decimal digits of `n`, most significant first; for `n = 0` that is the
hash of the single byte `'0'`. -/
theorem fnv1a_hash_digits_spec (n : Nat) (hn : n < 2 ^ 64) :
    fnv1a_hash_digits n = some (fnv1a_fold (ascii_decimal n)) ∧
      fnv1a_hash_digits 0 = some (fnv1a_fold [48]) := by
  refine ⟨?_, by decide⟩
  rw [fnv1a_hash_digits_eq n hn, fnv1a_fold_ascii_decimal]

theorem fnv1a_hash_digits_spec_witness :
    (18446744073709551615 : Nat) < 2 ^ 64 ∧
      (fnv1a_hash_digits 18446744073709551615 =
          some (fnv1a_fold (ascii_decimal 18446744073709551615)) ∧
        fnv1a_hash_digits 0 = some (fnv1a_fold [48])) :=
  ⟨by decide, fnv1a_hash_digits_spec 18446744073709551615 (by decide)⟩

/-! ## The vector hash -/

theorem count_digits_spec :
    ∀ (fuel temp digits : Nat), temp < fuel →
      ∃ c, count_digits fuel temp digits = some c ∧ digits < c ∧ temp < 10 ^ (c - digits) := by
  intro fuel
  induction fuel with
  | zero => intro temp _ h; omega
  | succ fuel ih =>
    intro temp digits hfuel
    by_cases hpos : temp / 10 > 0
    · obtain ⟨c, hc, hlt, hbound⟩ := ih (temp / 10) (digits + 1) (by omega)
      refine ⟨c, ?_, by omega, ?_⟩
      · simp only [count_digits, hpos, if_true]
        exact hc
      · have hsplit : 10 ^ (c - digits) = 10 ^ (c - (digits + 1)) * 10 := by
          rw [← pow_succ]; congr 1; omega
        rw [hsplit]
        exact Nat.lt_mul_of_div_lt hbound (by norm_num : 0 < 10)
    · refine ⟨digits + 1, ?_, by omega, ?_⟩
      · simp [count_digits, hpos]
      · have : digits + 1 - digits = 1 := by omega
        rw [this]; omega

theorem max_digits_loop_spec :
    ∀ (l : List Nat) (m : Nat),
      ∃ M, max_digits_loop l m = some M ∧ m ≤ M ∧ ∀ x ∈ l, x < 10 ^ M := by
  intro l
  induction l with
  | nil => intro m; exact ⟨m, rfl, le_refl m, by simp⟩
  | cons x rest ih =>
    intro m
    obtain ⟨c, hc, _, hbound⟩ := count_digits_spec (x + 1) x 0 (Nat.lt_succ_self x)
    obtain ⟨M, hM, hle, hrest⟩ := ih (max m c)
    refine ⟨M, ?_, le_trans (le_max_left m c) hle, ?_⟩
    · simp only [max_digits_loop, hc]
      exact hM
    · intro y hy
      rcases List.mem_cons.mp hy with rfl | hy
      · have hcM : c ≤ M := le_trans (le_max_right m c) hle
        have h1 : y < 10 ^ c := by simpa using hbound
        exact lt_of_lt_of_le h1 (Nat.pow_le_pow_right (by norm_num) hcM)
      · exact hrest y hy

theorem div10_loop_succ (j temp : Nat) :
    div10_loop (j + 1) temp = div10_loop j (temp / 10) := rfl

/-- What one digit position does to one lane: a round with the digit when
the shifted value is positive, nothing otherwise. -/
theorem hash_positions_succ (digit_pos : Nat) (numbers hashes : Fin 16 → Nat) :
    hash_positions (digit_pos + 1) numbers hashes =
      hash_positions digit_pos numbers (fun i =>
        if div10_loop digit_pos (numbers i) > 0 then
          fnv_round (hashes i) (48 + div10_loop digit_pos (numbers i) % 10)
        else hashes i) := by
  rw [hash_positions]
  refine congrArg (hash_positions digit_pos numbers) (funext fun i => ?_)
  simp only [mm512_mask_mullo_epi32, mm512_mask_xor_epi32, mm512_cmpneq_epi32_mask,
    mm512_setzero_si512, mm512_set1_epi32, digit_array]
  by_cases hpos : div10_loop digit_pos (numbers i) > 0
  · simp [hpos, fnv_round]
  · simp [hpos]

theorem hash_positions_peel :
    ∀ (M : Nat) (numbers hashes : Fin 16 → Nat) (i : Fin 16),
      hash_positions (M + 1) numbers hashes i =
        if numbers i > 0 then
          fnv_round (hash_positions M (fun k => numbers k / 10) hashes i) (48 + numbers i % 10)
        else hash_positions M (fun k => numbers k / 10) hashes i := by
  intro M
  induction M with
  | zero =>
    intro numbers hashes i
    rw [hash_positions_succ]
    simp [hash_positions, div10_loop]
  | succ M ih =>
    intro numbers hashes i
    rw [hash_positions_succ, ih]
    rw [hash_positions_succ M (fun k => numbers k / 10) hashes]
    simp only [div10_loop_succ]

theorem hash_positions_lane :
    ∀ (M : Nat) (numbers hashes : Fin 16 → Nat) (i : Fin 16),
      numbers i < 10 ^ M →
      hash_positions M numbers hashes i = digits_fold (hashes i) (numbers i) := by
  intro M
  induction M with
  | zero =>
    intro numbers hashes i h
    have hz : numbers i = 0 := by simpa using h
    simp [hash_positions, hz, digits_fold_zero]
  | succ M ih =>
    intro numbers hashes i h
    have hdiv : (fun k => numbers k / 10) i < 10 ^ M := by
      show numbers i / 10 < 10 ^ M
      rw [pow_succ] at h
      exact Nat.div_lt_of_lt_mul (by rw [Nat.mul_comm]; exact h)
    rw [hash_positions_peel, ih (fun k => numbers k / 10) hashes i hdiv]
    by_cases hpos : numbers i > 0
    · simp only [hpos, if_true]
      rw [← digits_fold_pos _ _ hpos]
    · have hz : numbers i = 0 := by omega
      simp [hz, digits_fold_zero]

/-- The vector hash always returns, and lane `i` holds `lane_hash` of the
value in lane `i`, whatever the other lanes hold. -/
theorem hash_batch_lane (numbers : Fin 16 → Nat) :
    ∃ hashes, hash_batch numbers = some hashes ∧
      ∀ i, hashes i = lane_hash (numbers i) := by
  obtain ⟨M, hM, _, hbound⟩ := max_digits_loop_spec (List.ofFn numbers) 0
  refine ⟨hash_positions M numbers (mm512_set1_epi32 FNV_OFFSET_BASIS), ?_, ?_⟩
  · simp only [hash_batch, hM]
  · intro i
    have hi : numbers i < 10 ^ M := hbound _ ((List.mem_ofFn numbers _).mpr ⟨i, rfl⟩)
    rw [hash_positions_lane M numbers _ i hi]
    rfl

theorem lane_hash_zero : lane_hash 0 = FNV_OFFSET_BASIS := by
  simp [lane_hash, digits_fold_zero]

/-- The offset basis has a preimage under the scalar hash. -/
theorem fnv1a_hash_digits_basis_preimage :
    fnv1a_hash_digits 1699980440 = some 2166136261 := by decide

/-! ## One batch -/

theorem check_results_cons_out (target_hash : Nat) (config : Config) (b : Nat)
    (hashes : Fin 16 → Nat) (i : Fin 16) (rest : List (Fin 16)) (s : SearchState)
    (hout : (b + i.val) % 2 ^ 64 ≥ config.end_range) :
    check_results target_hash config b hashes (i :: rest) s = (s, false) := by
  simp only [check_results]
  rw [if_pos hout]

theorem check_results_cons_claim (target_hash : Nat) (config : Config) (b : Nat)
    (hashes : Fin 16 → Nat) (i : Fin 16) (rest : List (Fin 16)) (s : SearchState)
    (hin : ¬ (b + i.val) % 2 ^ 64 ≥ config.end_range) (hhash : hashes i = target_hash)
    (hs : s.found = false) :
    check_results target_hash config b hashes (i :: rest) s =
      ({ found := true, result_value := (b + i.val) % 2 ^ 64,
         progress_counter := s.progress_counter }, true) := by
  have hbeq : (hashes i == target_hash) = true := beq_iff_eq.mpr hhash
  have hnf : (!s.found) = true := by rw [hs]; rfl
  simp only [check_results]
  rw [if_neg hin, if_pos hbeq, if_pos hnf]

theorem check_results_cons_skip (target_hash : Nat) (config : Config) (b : Nat)
    (hashes : Fin 16 → Nat) (i : Fin 16) (rest : List (Fin 16)) (s : SearchState)
    (hin : ¬ (b + i.val) % 2 ^ 64 ≥ config.end_range) (hhash : hashes i ≠ target_hash) :
    check_results target_hash config b hashes (i :: rest) s =
      check_results target_hash config b hashes rest s := by
  have hbeq : ¬ (hashes i == target_hash) = true := fun h => hhash (beq_iff_eq.mp h)
  simp only [check_results]
  rw [if_neg hin, if_neg hbeq]

theorem check_results_sound (target_hash : Nat) (config : Config) (b : Nat)
    (hashes : Fin 16 → Nat) :
    ∀ (lanes : List (Fin 16)) (s : SearchState), s.found = false →
      check_results target_hash config b hashes lanes s = (s, false) ∨
      ∃ i ∈ lanes, (b + i.val) % 2 ^ 64 < config.end_range ∧ hashes i = target_hash ∧
        check_results target_hash config b hashes lanes s =
          ({ found := true, result_value := (b + i.val) % 2 ^ 64,
             progress_counter := s.progress_counter }, true) := by
  intro lanes
  induction lanes with
  | nil => intro s _; left; rfl
  | cons i rest ih =>
    intro s hs
    by_cases hout : (b + i.val) % 2 ^ 64 ≥ config.end_range
    · left; exact check_results_cons_out _ _ _ _ _ _ _ hout
    · by_cases hhash : hashes i = target_hash
      · right
        exact ⟨i, List.mem_cons_self i rest, by omega, hhash,
          check_results_cons_claim _ _ _ _ _ _ _ hout hhash hs⟩
      · rw [check_results_cons_skip _ _ _ _ _ _ _ hout hhash]
        rcases ih s hs with h | ⟨k, hk, hin, hk2, hres⟩
        · left; exact h
        · right; exact ⟨k, List.mem_cons_of_mem i hk, hin, hk2, hres⟩

theorem check_results_hit (target_hash : Nat) (config : Config) (b : Nat)
    (hashes : Fin 16 → Nat)
    (hmono : ∀ i j : Fin 16, j ≤ i → (b + i.val) % 2 ^ 64 < config.end_range →
      (b + j.val) % 2 ^ 64 < config.end_range) :
    ∀ (lanes : List (Fin 16)) (s : SearchState), s.found = false →
      lanes.Pairwise (· < ·) →
      (∃ i ∈ lanes, (b + i.val) % 2 ^ 64 < config.end_range ∧ hashes i = target_hash) →
      (check_results target_hash config b hashes lanes s).2 = true := by
  intro lanes
  induction lanes with
  | nil => intro s _ _ h; obtain ⟨i, hi, _⟩ := h; cases hi
  | cons j rest ih =>
    intro s hs hsorted hhit
    obtain ⟨i, hi, hin, hhash⟩ := hhit
    have hji : j ≤ i := by
      rcases List.mem_cons.mp hi with rfl | hi
      · exact le_refl _
      · exact le_of_lt ((List.pairwise_cons.mp hsorted).1 i hi)
    have hjin : ¬ (b + j.val) % 2 ^ 64 ≥ config.end_range := by
      have := hmono i j hji hin
      omega
    by_cases hj : hashes j = target_hash
    · rw [check_results_cons_claim _ _ _ _ _ _ _ hjin hj hs]
    · have hirest : i ∈ rest := by
        rcases List.mem_cons.mp hi with rfl | hi
        · exact absurd hhash hj
        · exact hi
      rw [check_results_cons_skip _ _ _ _ _ _ _ hjin hj]
      exact ih s hs (List.pairwise_cons.mp hsorted).2 ⟨i, hirest, hin, hhash⟩

/-- One call of the lambda on a state without a match, for a batch whose
sixteen lane values do not wrap: either no lane of the batch below
`end_range` has the target as its lane hash and only `progress_counter`
changes, or the match is claimed for one such lane value. -/
theorem process_batch_spec (target_hash : Nat) (config : Config) (s : SearchState)
    (b : Nat) (hs : s.found = false) (hb : b + 16 ≤ 2 ^ 64) :
    ∃ s1, process_batch target_hash config s b = some s1 ∧
      ((s1 = { s with progress_counter := b } ∧
          ∀ v, b ≤ v → v < b + 16 → v < config.end_range → lane_hash v ≠ target_hash) ∨
        ∃ v, b ≤ v ∧ v < b + 16 ∧ v < config.end_range ∧ lane_hash v = target_hash ∧
          s1 = { found := true, result_value := v,
                 progress_counter := s.progress_counter }) := by
  obtain ⟨hashes, hbatch, hlane⟩ := hash_batch_lane (prepare_batch config b)
  have hmod : ∀ i : Fin 16, (b + i.val) % 2 ^ 64 = b + i.val := by
    intro i
    have := i.isLt
    exact Nat.mod_eq_of_lt (by omega)
  have hin : ∀ i : Fin 16, b + i.val < config.end_range →
      hashes i = lane_hash (b + i.val) := by
    intro i hi
    rw [hlane i]
    have hnot : ¬ b + i.val ≥ config.end_range := by omega
    simp only [prepare_batch, hmod i]
    rw [if_neg hnot]
  have hmono : ∀ i j : Fin 16, j ≤ i → (b + i.val) % 2 ^ 64 < config.end_range →
      (b + j.val) % 2 ^ 64 < config.end_range := by
    intro i j hji hi
    rw [hmod i] at hi
    rw [hmod j]
    have : j.val ≤ i.val := hji
    omega
  by_cases hex : ∃ i : Fin 16, b + i.val < config.end_range ∧
      lane_hash (b + i.val) = target_hash
  · obtain ⟨i, hi, hhash⟩ := hex
    have htrue := check_results_hit target_hash config b hashes hmono (List.finRange 16) s hs
      (List.pairwise_lt_finRange 16)
      ⟨i, List.mem_finRange i, by rw [hmod i]; exact hi, by rw [hin i hi]; exact hhash⟩
    rcases check_results_sound target_hash config b hashes (List.finRange 16) s hs with
      h | ⟨k, _, hkin, hkhash, hres⟩
    · rw [h] at htrue; cases htrue
    · rw [hmod k] at hkin hres
      refine ⟨_, ?_, Or.inr ⟨b + k.val, by omega, ?_, hkin, ?_, rfl⟩⟩
      · simp only [process_batch, hs, hbatch, hres]
        rfl
      · have := k.isLt; omega
      · rw [← hin k hkin]; exact hkhash
  · rcases check_results_sound target_hash config b hashes (List.finRange 16) s hs with
      h | ⟨k, _, hkin, hkhash, _⟩
    · refine ⟨_, ?_, Or.inl ⟨rfl, ?_⟩⟩
      · simp only [process_batch, hs, hbatch, h]
        rfl
      · intro v hv1 hv2 hv3 hv4
        exact hex ⟨⟨v - b, by omega⟩, by simp only []; omega, by
          have : b + (v - b) = v := by omega
          simp only [this]; exact hv4⟩
    · rw [hmod k] at hkin
      exact absurd ⟨k, hkin, by rw [← hin k hkin]; exact hkhash⟩ hex

theorem process_batch_found (target_hash : Nat) (config : Config) (s : SearchState)
    (b : Nat) (hs : s.found = true) :
    process_batch target_hash config s b = some s := by
  simp [process_batch, hs]

/-! ## All batches, in any order -/

theorem run_batches_nil (target_hash : Nat) (config : Config) (s : SearchState) :
    run_batches target_hash config [] s = some s := rfl

theorem run_batches_cons (target_hash : Nat) (config : Config) (b : Nat)
    (rest : List Nat) (s s1 : SearchState)
    (h : process_batch target_hash config s b = some s1) :
    run_batches target_hash config (b :: rest) s =
      run_batches target_hash config rest s1 := by
  simp only [run_batches, List.foldlM_cons, h]
  rfl

theorem run_batches_found (target_hash : Nat) (config : Config) :
    ∀ (order : List Nat) (s : SearchState), s.found = true →
      run_batches target_hash config order s = some s := by
  intro order
  induction order with
  | nil => intro s _; rfl
  | cons b rest ih =>
    intro s hs
    rw [run_batches_cons _ _ _ _ _ _ (process_batch_found _ _ _ _ hs)]
    exact ih s hs

/-- The whole `for_each` from a state without a match, over batches whose
lane values do not wrap.  Either no batch holds a lane value below
`end_range` whose lane hash is the target, and the final state is the
initial one with `progress_counter` set to the batch processed last; or the
match was claimed, for such a lane value of one of the batches. -/
theorem run_batches_spec (target_hash : Nat) (config : Config) :
    ∀ (order : List Nat) (s : SearchState), s.found = false →
      (∀ b ∈ order, b + 16 ≤ 2 ^ 64) →
      ∃ s1, run_batches target_hash config order s = some s1 ∧
        ((s1 = { s with progress_counter := order.getLast?.getD s.progress_counter } ∧
            ∀ b ∈ order, ∀ v, b ≤ v → v < b + 16 → v < config.end_range →
              lane_hash v ≠ target_hash) ∨
          (s1.found = true ∧
            (∃ b ∈ order, ∃ v, b ≤ v ∧ v < b + 16 ∧ v < config.end_range ∧
              lane_hash v = target_hash ∧ s1.result_value = v) ∧
            (s1.progress_counter = s.progress_counter ∨ s1.progress_counter ∈ order))) := by
  intro order
  induction order with
  | nil =>
    intro s _ _
    exact ⟨s, rfl, Or.inl ⟨rfl, by simp⟩⟩
  | cons b rest ih =>
    intro s hs hwrap
    have hb : b + 16 ≤ 2 ^ 64 := hwrap b (List.mem_cons_self b rest)
    have hrest : ∀ c ∈ rest, c + 16 ≤ 2 ^ 64 :=
      fun c hc => hwrap c (List.mem_cons_of_mem b hc)
    obtain ⟨s1, hstep, hcase⟩ := process_batch_spec target_hash config s b hs hb
    rw [run_batches_cons _ _ _ _ _ _ hstep]
    rcases hcase with ⟨hs1, hmiss⟩ | ⟨v, hv1, hv2, hv3, hv4, hs1⟩
    · have hf1 : s1.found = false := by rw [hs1]; exact hs
      obtain ⟨s2, hrun, hcase2⟩ := ih s1 hf1 hrest
      refine ⟨s2, hrun, ?_⟩
      rcases hcase2 with ⟨hs2, hmiss2⟩ | ⟨hf2, ⟨c, hc, w, hw⟩, hprog⟩
      · left
        refine ⟨?_, ?_⟩
        · rw [hs2, hs1, List.getLast?_cons]
          simp
        · intro c hc
          rcases List.mem_cons.mp hc with rfl | hc
          · exact hmiss
          · exact hmiss2 c hc
      · right
        refine ⟨hf2, ⟨c, List.mem_cons_of_mem b hc, w, hw⟩, ?_⟩
        rcases hprog with hp | hp
        · right
          rw [hp, hs1]
          exact List.mem_cons_self b rest
        · right
          exact List.mem_cons_of_mem b hp
    · have hf1 : s1.found = true := by rw [hs1]
      refine ⟨s1, run_batches_found _ _ rest s1 hf1, Or.inr ⟨hf1, ?_, ?_⟩⟩
      · exact ⟨b, List.mem_cons_self b rest, v, hv1, hv2, hv3, hv4, by rw [hs1]⟩
      · left; rw [hs1]

/-! ## The batch starts -/

/-- The batch starts for a range that ends at least sixteen below `2^64`:
the loop stops, with the starts `i, i + 16, ...` below `end_range`. -/
theorem batch_starts_loop_spec (end_range : Nat) (hend : end_range + 16 ≤ 2 ^ 64) :
    ∀ (fuel i : Nat) (acc : List Nat), (end_range - i + 15) / 16 < fuel →
      batch_starts_loop fuel i end_range acc =
        some (acc ++ (List.range ((end_range - i + 15) / 16)).map (fun k => i + 16 * k)) := by
  intro fuel
  induction fuel with
  | zero => intro i acc h; omega
  | succ fuel ih =>
    intro i acc h
    by_cases hlt : i < end_range
    · have hmod : (i + 16) % 2 ^ 64 = i + 16 := Nat.mod_eq_of_lt (by omega)
      have hcount : (end_range - i + 15) / 16 = (end_range - (i + 16) + 15) / 16 + 1 := by
        omega
      simp only [batch_starts_loop]
      rw [if_pos hlt, hmod, ih (i + 16) (acc ++ [i]) (by omega), hcount,
        List.range_succ_eq_map]
      simp only [List.map_cons, List.map_map, List.append_assoc, List.singleton_append,
        Nat.mul_zero, Nat.add_zero]
      congr 3
      apply List.map_congr_left
      intro k _
      simp only [Function.comp, Nat.succ_eq_add_one]
      omega
    · have hz : (end_range - i + 15) / 16 = 0 := by omega
      simp only [batch_starts_loop]
      rw [if_neg hlt, hz]
      simp

theorem mem_batch_starts (start_range end_range b : Nat) :
    b ∈ (List.range ((end_range - start_range + 15) / 16)).map
        (fun k => start_range + 16 * k) ↔
      ∃ k, k < (end_range - start_range + 15) / 16 ∧ b = start_range + 16 * k := by
  simp only [List.mem_map, List.mem_range]
  constructor
  · rintro ⟨k, hk, rfl⟩; exact ⟨k, hk, rfl⟩
  · rintro ⟨k, hk, rfl⟩; exact ⟨k, hk, rfl⟩

/-! ## `format_digits` -/

theorem pad_loop_spec :
    ∀ (fuel : Nat) (result : String) (width : Int),
      (width - result.length).toNat < fuel →
      pad_loop fuel result width =
        some (String.mk (List.replicate (width - result.length).toNat '0') ++ result) := by
  intro fuel
  induction fuel with
  | zero => intro result width h; omega
  | succ fuel ih =>
    intro result width h
    by_cases hlt : (result.length : Int) < width
    · have hlen : (("0" ++ result).length : Int) = result.length + 1 := by
        rw [String.length_append]
        have : ("0" : String).length = 1 := rfl
        rw [this]; push_cast; ring
      have hk : (width - result.length).toNat =
          (width - (("0" ++ result).length : Int)).toNat + 1 := by
        rw [hlen]; omega
      simp only [pad_loop]
      rw [if_pos hlt, ih ("0" ++ result) width (by omega), hk, List.replicate_succ']
      congr 1
      apply String.ext
      simp [String.data_append]
    · have hz : (width - result.length).toNat = 0 := by omega
      simp only [pad_loop]
      rw [if_neg hlt, hz]
      congr 1

theorem pad_loop_fixed (fuel : Nat) (result : String) (width : Int)
    (h : ¬ (result.length : Int) < width) :
    pad_loop (fuel + 1) result width = some result := by
  simp only [pad_loop]
  rw [if_neg h]

theorem format_digits_eq (number : Nat) (width : Int) :
    format_digits number width =
      some (String.mk (List.replicate (width - (to_string number).length).toNat '0') ++
        to_string number) :=
  pad_loop_spec _ _ _ (by omega)

theorem length_replicate_append (k : Nat) (t : String) :
    (String.mk (List.replicate k '0') ++ t).length = k + t.length := by
  rw [String.length_append]
  show (List.replicate k '0').length + t.length = k + t.length
  rw [List.length_replicate]

/-- C9: `format_digits n w` is the decimal representation of `n` preceded
by exactly `max 0 (w - len)` characters `'0'`; its length is `max w len`; it
is the plain representation when `len >= w`; in particular
`format_digits 5 3 = "005"` and `format_digits 12345 3 = "12345"`. -/
theorem format_digits_spec (n : Nat) (w : Int) :
    ∃ r, format_digits n w = some r ∧
      r = String.mk (List.replicate (max 0 (w - (to_string n).length)).toNat '0') ++
        to_string n ∧
      (r.length : Int) = max w (to_string n).length ∧
      (w ≤ (to_string n).length → r = to_string n) ∧
      format_digits 5 3 = some "005" ∧ format_digits 12345 3 = some "12345" := by
  refine ⟨_, format_digits_eq n w, ?_, ?_, ?_, by decide, by decide⟩
  · have : (max 0 (w - ((to_string n).length : Int))).toNat =
        (w - ((to_string n).length : Int)).toNat := by omega
    rw [this]
  · rw [length_replicate_append]
    push_cast
    omega
  · intro h
    have hz : (w - ((to_string n).length : Int)).toNat = 0 := by omega
    rw [hz]
    apply String.ext
    simp [String.data_append]

theorem foldl_replicate_zero (k : Nat) :
    (List.replicate k '0').foldl (fun acc c => 10 * acc + (c.toNat - 48)) 0 = 0 := by
  induction k with
  | zero => rfl
  | succ k ih =>
    rw [List.replicate_succ, List.foldl_cons]
    exact ih

theorem digits_fold_with_decimal (n : Nat) :
    digits_fold_with (fun acc x => 10 * acc + (x - 48)) 0 n = n := by
  induction n using Nat.strong_induction_on with
  | _ n ih =>
    by_cases hz : n = 0
    · subst hz; exact digits_fold_with_zero _ _
    · have hpos : 0 < n := Nat.pos_of_ne_zero hz
      rw [digits_fold_with_pos _ _ _ hpos, ih (n / 10) (by omega)]
      omega

theorem read_decimal_to_string (k n : Nat) :
    read_decimal (String.mk (List.replicate k '0') ++ to_string n) = n := by
  have h := toDigitsCore_fold (fun acc x => 10 * acc + (x - 48)) (n + 1) n [] 0
    (Nat.lt_succ_self n)
  rw [digits_fold_with_decimal, List.foldl_map] at h
  simp only [List.map_nil, List.foldl_nil] at h
  have hdata : (String.mk (List.replicate k '0') ++ to_string n).data =
      List.replicate k '0' ++ Nat.toDigits 10 n := by
    simp [String.data_append, to_string, Nat.repr, List.asString]
  unfold read_decimal
  rw [hdata, List.foldl_append, foldl_replicate_zero]
  unfold Nat.toDigits
  rw [h]
  omega

/-- C10: the padding loop of `format_digits`, run again with width `w` on
the string `format_digits n w`, returns that string unchanged, and the
string read back as a decimal number is `n`. -/
theorem format_digits_idempotent (n : Nat) (w : Int) :
    ∃ r, format_digits n w = some r ∧
      pad_loop (w.toNat + 1) r w = some r ∧ read_decimal r = n := by
  refine ⟨_, format_digits_eq n w, ?_, read_decimal_to_string _ n⟩
  apply pad_loop_fixed
  rw [length_replicate_append]
  push_cast
  omega

/-! ## The result of the search -/

theorem fnv1a_hash_digits_zero : fnv1a_hash_digits 0 = some 890022063 := by decide

theorem fill_result_found (host : Host) (target_hash : Nat) (s : SearchState)
    (h : 0 < s.result_value ∨ target_hash = 890022063) :
    fill_result host target_hash s =
      some { found := true, value := s.result_value,
             digits := String.mk (List.replicate
               (9 - ((to_string s.result_value).length : Int)).toNat '0') ++
               to_string s.result_value,
             search_time_ms := host.duration_ms,
             total_checked := s.progress_counter } := by
  unfold fill_result
  by_cases hpos : s.result_value > 0
  · simp only [hpos, if_true, format_digits_eq, Option.map_some']
  · have hz : s.result_value = 0 := by omega
    have ht : target_hash = 890022063 := by
      rcases h with h | h
      · omega
      · exact h
    simp only [hpos, if_false, fnv1a_hash_digits_zero, hz, ht, format_digits_eq,
      Option.map_some', beq_self_eq_true, Bool.and_self, if_true, ite_self]

theorem fill_result_not_found (host : Host) (target_hash : Nat) (s : SearchState)
    (hz : s.result_value = 0) (ht : target_hash ≠ 890022063) :
    fill_result host target_hash s =
      some { search_time_ms := host.duration_ms, total_checked := s.progress_counter } := by
  unfold fill_result
  have hne : ((890022063 : Nat) == target_hash) = false := by
    simpa using fun h => ht h.symm
  simp only [hz, fnv1a_hash_digits_zero, hne, Bool.and_false, gt_iff_lt, lt_self_iff_false,
    if_false, Bool.false_eq_true]

theorem find_hash_match_eq (host : Host) (fuel target_hash : Nat) (config : Config)
    (havx : is_avx512_available host = true)
    (hend : config.end_range + 16 ≤ 2 ^ 64)
    (hfuel : (config.end_range - config.start_range + 15) / 16 < fuel) :
    find_hash_match host fuel target_hash config =
      (run_batches target_hash config (host.schedule (batch_starts_list config)) {}).bind
        (fill_result host target_hash) := by
  unfold find_hash_match
  rw [havx, batch_starts_loop_spec config.end_range hend fuel config.start_range [] hfuel]
  simp only [Bool.not_true, Bool.false_eq_true, if_false, List.nil_append]
  cases hrun : run_batches target_hash config
      (host.schedule (batch_starts_list config)) {} with
  | none =>
    unfold batch_starts_list at hrun
    rw [hrun]; rfl
  | some s1 =>
    unfold batch_starts_list at hrun
    rw [hrun]; rfl

theorem mem_batch_starts_list (config : Config) (b : Nat) :
    b ∈ batch_starts_list config ↔
      ∃ k, k < (config.end_range - config.start_range + 15) / 16 ∧
        b = config.start_range + 16 * k :=
  mem_batch_starts _ _ _

/-- The search on a range that ends at least sixteen below `2^64`, with
enough fuel and any order of the batches: it returns the result filled from
a final state which is either the initial one with `progress_counter` moved
(and then no value of the range has the target as its lane hash), or has
the match claimed for a value of the range whose lane hash is the target. -/
theorem find_hash_match_cases (host : Host) (fuel target_hash : Nat) (config : Config)
    (havx : is_avx512_available host = true)
    (hperm : ∀ l, (host.schedule l).Perm l)
    (hend : config.end_range + 16 ≤ 2 ^ 64)
    (hfuel : (config.end_range - config.start_range + 15) / 16 < fuel) :
    ∃ s, run_batches target_hash config (host.schedule (batch_starts_list config)) {} =
          some s ∧
      find_hash_match host fuel target_hash config = fill_result host target_hash s ∧
      (s.progress_counter = 0 ∨
        (config.start_range ≤ s.progress_counter ∧
          s.progress_counter < config.end_range)) ∧
      ((s = { progress_counter :=
                (host.schedule (batch_starts_list config)).getLast?.getD 0 } ∧
          ∀ v, config.start_range ≤ v → v < config.end_range →
            lane_hash v ≠ target_hash) ∨
        (s.found = true ∧
          ∃ v, config.start_range ≤ v ∧ v < config.end_range ∧
            lane_hash v = target_hash ∧ s.result_value = v)) := by
  have hmem : ∀ b, b ∈ host.schedule (batch_starts_list config) ↔
      b ∈ batch_starts_list config := fun b => (hperm _).mem_iff
  have hbatch : ∀ b ∈ host.schedule (batch_starts_list config),
      config.start_range ≤ b ∧ b < config.end_range := by
    intro b hb
    obtain ⟨k, hk, rfl⟩ := (mem_batch_starts_list config b).mp ((hmem b).mp hb)
    omega
  have hwrap : ∀ b ∈ host.schedule (batch_starts_list config), b + 16 ≤ 2 ^ 64 := by
    intro b hb
    have := hbatch b hb
    omega
  obtain ⟨s, hrun, hcase⟩ := run_batches_spec target_hash config
    (host.schedule (batch_starts_list config)) {} rfl hwrap
  refine ⟨s, hrun, ?_, ?_, ?_⟩
  · rw [find_hash_match_eq host fuel target_hash config havx hend hfuel, hrun]
    rfl
  · rcases hcase with ⟨hs, _⟩ | ⟨_, _, hprog⟩
    · rw [hs]
      cases hlast : (host.schedule (batch_starts_list config)).getLast? with
      | none => left; rfl
      | some a =>
        right
        obtain ⟨ys, hys⟩ := List.getLast?_eq_some_iff.mp hlast
        exact hbatch a (by rw [hys]; simp)
    · rcases hprog with hp | hp
      · left; exact hp
      · right; exact hbatch _ hp
  · rcases hcase with ⟨hs, hmiss⟩ | ⟨hf, ⟨b, hb, v, hv1, hv2, hv3, hv4, hv5⟩, _⟩
    · left
      refine ⟨hs, ?_⟩
      intro v hv1 hv2
      have hb : config.start_range + 16 * ((v - config.start_range) / 16) ∈
          host.schedule (batch_starts_list config) :=
        (hmem _).mpr ((mem_batch_starts_list config _).mpr
          ⟨(v - config.start_range) / 16, by omega, rfl⟩)
      exact hmiss _ hb v (by omega) (by omega) hv2
    · right
      refine ⟨hf, v, ?_, hv3, hv4, hv5⟩
      have := hbatch b hb; omega

theorem lane_hash_eq_scalar (v target_hash : Nat) (hv : v < 2 ^ 64) (hpos : 0 < v) :
    lane_hash v = target_hash ↔ fnv1a_hash_digits v = some target_hash := by
  rw [fnv1a_hash_digits_pos v hv hpos]
  constructor
  · intro h; rw [h]
  · intro h; exact Option.some.inj h

theorem schedule_singleton (host : Host) (hperm : ∀ l, (host.schedule l).Perm l)
    (b : Nat) : host.schedule [b] = [b] :=
  List.perm_singleton.mp (hperm [b])

/-- A unique preimage in the range is found, on a range that ends at least
sixteen below `2^64` and, when the range starts at 0, for a target other
than the offset basis (the lane hash of the value 0). -/
theorem find_hash_match_unique (host : Host) (fuel target_hash : Nat) (config : Config)
    (v0 : Nat)
    (havx : is_avx512_available host = true)
    (hperm : ∀ l, (host.schedule l).Perm l)
    (hend : config.end_range + 16 ≤ 2 ^ 64)
    (hfuel : (config.end_range - config.start_range + 15) / 16 < fuel)
    (hv0s : config.start_range ≤ v0) (hv0e : v0 < config.end_range)
    (hhash : fnv1a_hash_digits v0 = some target_hash)
    (huniq : ∀ v, config.start_range ≤ v → v < config.end_range →
      fnv1a_hash_digits v = some target_hash → v = v0)
    (hbasis : config.start_range = 0 → target_hash ≠ FNV_OFFSET_BASIS) :
    ∃ r, find_hash_match host fuel target_hash config = some r ∧
      r.found = true ∧ r.value = v0 ∧ format_digits v0 = some r.digits ∧
      (r.total_checked = 0 ∨
        (config.start_range ≤ r.total_checked ∧ r.total_checked < config.end_range)) := by
  obtain ⟨s, _, hres, hprog, hcase⟩ :=
    find_hash_match_cases host fuel target_hash config havx hperm hend hfuel
  rw [hres]
  rcases hcase with ⟨hs, hmiss⟩ | ⟨_, v, hv1, hv2, hv3, hv4⟩
  · have hv0 : v0 = 0 := by
      by_contra hne
      have hpos : 0 < v0 := Nat.pos_of_ne_zero hne
      exact hmiss v0 hv0s hv0e
        ((lane_hash_eq_scalar v0 target_hash (by omega) hpos).mpr hhash)
    subst hv0
    have ht : target_hash = 890022063 := by
      rw [fnv1a_hash_digits_zero] at hhash
      exact (Option.some.inj hhash).symm
    have hrv : s.result_value = 0 := by rw [hs]
    rw [fill_result_found host target_hash s (Or.inr ht)]
    refine ⟨_, rfl, rfl, hrv, ?_, hprog⟩
    rw [hrv]; exact format_digits_eq 0 9
  · have hpos : 0 < v := by
      by_contra hne
      have hz : v = 0 := by omega
      subst hz
      rw [lane_hash_zero] at hv3
      exact hbasis (by omega) hv3.symm
    have hv : v = v0 :=
      huniq v hv1 hv2 ((lane_hash_eq_scalar v target_hash (by omega) hpos).mp hv3)
    subst hv
    rw [fill_result_found host target_hash s (Or.inl (by omega))]
    refine ⟨_, rfl, rfl, hv4, ?_, hprog⟩
    rw [hv4]; exact format_digits_eq v 9

theorem batch_starts_loop_diverges :
    ∀ (fuel i : Nat) (acc : List Nat), i % 16 = 14 → i < 2 ^ 64 →
      batch_starts_loop fuel i (2 ^ 64 - 1) acc = none := by
  intro fuel
  induction fuel with
  | zero => intro i acc _ _; rfl
  | succ fuel ih =>
    intro i acc hmod hlt
    have hi : i < 2 ^ 64 - 1 := by omega
    simp only [batch_starts_loop]
    rw [if_pos hi]
    exact ih _ _ (by omega) (Nat.mod_lt _ (by norm_num))

/-! ## The claims on `hash_batch` and `find_hash_match` -/

/-- C2, at a batch with the value 0 in lane `i`: `hash_batch` leaves the
lane at the offset basis `0x811c9dc5` (2166136261), which is not
`fnv1a_hash_digits 0` (890022063), so the lane differs from the scalar hash. -/
theorem hash_batch_zero_lane (numbers : Fin 16 → Nat) (i : Fin 16)
    (hzero : numbers i = 0) :
    ∃ hashes, hash_batch numbers = some hashes ∧ hashes i = 2166136261 ∧
      fnv1a_hash_digits (numbers i) = some 890022063 ∧
      some (hashes i) ≠ fnv1a_hash_digits (numbers i) := by
  obtain ⟨hashes, hrun, hlane⟩ := hash_batch_lane numbers
  have h1 : hashes i = 2166136261 := by
    rw [hlane i, hzero, lane_hash_zero]; rfl
  refine ⟨hashes, hrun, h1, ?_, ?_⟩
  · rw [hzero]; exact fnv1a_hash_digits_zero
  · rw [hzero, h1, fnv1a_hash_digits_zero]
    decide

theorem hash_batch_zero_lane_witness :
    (fun i : Fin 16 => [0, 9, 10, 99, 100].getD i.val 0) 0 = 0 ∧
      ∃ hashes, hash_batch (fun i : Fin 16 => [0, 9, 10, 99, 100].getD i.val 0) =
          some hashes ∧ hashes 0 = 2166136261 ∧
        fnv1a_hash_digits ((fun i : Fin 16 => [0, 9, 10, 99, 100].getD i.val 0) 0) =
          some 890022063 ∧
        some (hashes 0) ≠
          fnv1a_hash_digits ((fun i : Fin 16 => [0, 9, 10, 99, 100].getD i.val 0) 0) :=
  ⟨rfl, hash_batch_zero_lane (fun i : Fin 16 => [0, 9, 10, 99, 100].getD i.val 0) 0 rfl⟩

/-- C3, at the range `[2^64 - 18, 2^64 - 1)` with the target
`fnv1a_hash_digits (2^64 - 18)`: exactly one value of the range has the
target hash, and the loop that builds the batch starts wraps around and
never stops, so `find_hash_match` returns no result, with any fuel. -/
theorem near_max_range_diverges (host : Host) (fuel : Nat)
    (havx : is_avx512_available host = true) :
    (fnv1a_hash_digits 18446744073709551598 = some 269107566 ∧
      ∀ v, 18446744073709551598 ≤ v → v < 18446744073709551615 →
        fnv1a_hash_digits v = some 269107566 → v = 18446744073709551598) ∧
      find_hash_match host fuel 269107566
        { start_range := 18446744073709551598, end_range := 18446744073709551615 } =
        none := by
  refine ⟨⟨by decide, ?_⟩, ?_⟩
  · intro v h1 h2 h3
    have hall : ∀ k, k < 17 →
        fnv1a_hash_digits (18446744073709551598 + k) = some 269107566 → k = 0 := by
      decide
    have hk := hall (v - 18446744073709551598) (by omega)
      (by rw [show 18446744073709551598 + (v - 18446744073709551598) = v by omega]
          exact h3)
    omega
  · unfold find_hash_match
    rw [havx]
    have hdiv := batch_starts_loop_diverges fuel 18446744073709551598 []
      (by norm_num) (by norm_num)
    have he : (18446744073709551615 : Nat) = 2 ^ 64 - 1 := by norm_num
    simp only [Bool.not_true, Bool.false_eq_true, if_false, he, hdiv]

theorem near_max_range_diverges_witness :
    is_avx512_available ⟨65536, 4, id, 0⟩ = true ∧
      ((fnv1a_hash_digits 18446744073709551598 = some 269107566 ∧
        ∀ v, 18446744073709551598 ≤ v → v < 18446744073709551615 →
          fnv1a_hash_digits v = some 269107566 → v = 18446744073709551598) ∧
      find_hash_match ⟨65536, 4, id, 0⟩ 1000 269107566
        { start_range := 18446744073709551598, end_range := 18446744073709551615 } =
        none) :=
  ⟨by decide, near_max_range_diverges ⟨65536, 4, id, 0⟩ 1000 (by decide)⟩

/-- C4, at the range `[1, 2)` with the target `fnv1a_hash_digits 0`
(890022063): no value of the range has the target hash, and `find_hash_match`
returns `found = true` with the value 0, which is outside the range. -/
theorem find_hash_match_no_match_reports_zero (host : Host) (fuel : Nat)
    (havx : is_avx512_available host = true)
    (hperm : ∀ l, (host.schedule l).Perm l) (hfuel : 1 < fuel) :
    (∀ v, 1 ≤ v → v < 2 → fnv1a_hash_digits v ≠ some 890022063) ∧
      find_hash_match host fuel 890022063 { start_range := 1, end_range := 2 } =
        some { found := true, value := 0, digits := "000000000",
               search_time_ms := host.duration_ms, total_checked := 1 } := by
  refine ⟨?_, ?_⟩
  · intro v h1 h2
    have hv : v = 1 := by omega
    subst hv
    decide
  · have hlist : batch_starts_list { start_range := 1, end_range := 2 } = [1] := by decide
    have hrun : run_batches 890022063 { start_range := 1, end_range := 2 } [1] {} =
        some { progress_counter := 1 } := by decide
    rw [find_hash_match_eq host fuel 890022063 _ havx (by norm_num) (by simpa using hfuel),
      hlist, schedule_singleton host hperm, hrun]
    show fill_result host 890022063 { progress_counter := 1 } = _
    rw [fill_result_found host 890022063 _ (Or.inr rfl)]
    rfl

theorem find_hash_match_no_match_reports_zero_witness :
    is_avx512_available ⟨65536, 4, id, 0⟩ = true ∧ 1 < 2 ∧
      ((∀ v, 1 ≤ v → v < 2 → fnv1a_hash_digits v ≠ some 890022063) ∧
        find_hash_match ⟨65536, 4, id, 0⟩ 2 890022063 { start_range := 1, end_range := 2 } =
          some { found := true, value := 0, digits := "000000000",
                 search_time_ms := 0, total_checked := 1 }) :=
  ⟨by decide, by decide,
    find_hash_match_no_match_reports_zero ⟨65536, 4, id, 0⟩ 2 (by decide)
      (fun l => List.Perm.refl l) (by decide)⟩

/-- C5 fails at the range `[0, 3169923064)`: 3169923063 has the same hash
as 0, and with the batches taken in increasing order the search for
`fnv1a_hash_digits 0` returns a value other than 0. -/
theorem zero_target_collision_counterexample :
    fnv1a_hash_digits 0 = some 890022063 ∧
      fnv1a_hash_digits 3169923063 = some 890022063 ∧
      ∃ r, find_hash_match ⟨65536, 4, id, 0⟩ 198120193 890022063
          { start_range := 0, end_range := 3169923064 } = some r ∧ r.value ≠ 0 := by
  refine ⟨by decide, by decide, ?_⟩
  obtain ⟨s, _, hres, _, hcase⟩ :=
    find_hash_match_cases ⟨65536, 4, id, 0⟩ 198120193 890022063
      { start_range := 0, end_range := 3169923064 } (by decide)
      (fun l => List.Perm.refl l) (by norm_num) (by norm_num)
  rw [hres]
  rcases hcase with ⟨_, hmiss⟩ | ⟨_, v, _, _, hv3, hv4⟩
  · exfalso
    refine hmiss 3169923063 (by norm_num) (by norm_num) ?_
    exact (lane_hash_eq_scalar 3169923063 890022063 (by norm_num) (by norm_num)).mpr
      (by decide)
  · have hpos : 0 < v := by
      by_contra hne
      have hz : v = 0 := by omega
      subst hz
      rw [lane_hash_zero] at hv3
      revert hv3
      decide
    rw [fill_result_found _ 890022063 s (Or.inr rfl)]
    refine ⟨_, rfl, ?_⟩
    show s.result_value ≠ 0
    omega

/-- C5 as amended: on a range `[0, end_range)` that ends at least sixteen
below `2^64`, the search for `fnv1a_hash_digits 0` returns `found = true` and
a value of the range with that hash; the value is 0 when no other value of
the range has the hash of 0. -/
theorem find_hash_match_zero_target (host : Host) (fuel target_hash : Nat)
    (config : Config)
    (havx : is_avx512_available host = true)
    (hperm : ∀ l, (host.schedule l).Perm l)
    (hstart : config.start_range = 0) (hlt : 0 < config.end_range)
    (hend : config.end_range + 16 ≤ 2 ^ 64)
    (hfuel : (config.end_range - config.start_range + 15) / 16 < fuel)
    (htarget : fnv1a_hash_digits 0 = some target_hash) :
    ∃ r, find_hash_match host fuel target_hash config = some r ∧
      r.found = true ∧ r.value < config.end_range ∧
      fnv1a_hash_digits r.value = some target_hash ∧
      ((∀ v, 0 < v → v < config.end_range →
          fnv1a_hash_digits v ≠ some target_hash) → r.value = 0) := by
  have ht : target_hash = 890022063 := by
    rw [fnv1a_hash_digits_zero] at htarget
    exact (Option.some.inj htarget).symm
  obtain ⟨s, _, hres, _, hcase⟩ :=
    find_hash_match_cases host fuel target_hash config havx hperm hend hfuel
  rw [hres, fill_result_found host target_hash s (Or.inr ht)]
  refine ⟨_, rfl, rfl, ?_⟩
  show s.result_value < config.end_range ∧
    fnv1a_hash_digits s.result_value = some target_hash ∧
    ((∀ v, 0 < v → v < config.end_range →
      fnv1a_hash_digits v ≠ some target_hash) → s.result_value = 0)
  rcases hcase with ⟨hs, _⟩ | ⟨_, v, _, hv2, hv3, hv4⟩
  · have hrv : s.result_value = 0 := by rw [hs]
    rw [hrv]
    exact ⟨hlt, htarget, fun _ => rfl⟩
  · have hpos : 0 < v := by
      by_contra hne
      have hz : v = 0 := by omega
      subst hz
      rw [lane_hash_zero, ht] at hv3
      revert hv3
      decide
    have hscalar : fnv1a_hash_digits v = some target_hash :=
      (lane_hash_eq_scalar v target_hash (by omega) hpos).mp hv3
    rw [hv4]
    exact ⟨hv2, hscalar, fun hnone => absurd hscalar (hnone v hpos hv2)⟩

theorem find_hash_match_zero_target_witness :
    is_avx512_available ⟨65536, 4, List.reverse, 0⟩ = true ∧
      (0 : Nat) < 100 ∧ fnv1a_hash_digits 0 = some 890022063 ∧
      ∃ r, find_hash_match ⟨65536, 4, List.reverse, 0⟩ 8 890022063
          { start_range := 0, end_range := 100 } = some r ∧
        r.found = true ∧ r.value < 100 ∧
        fnv1a_hash_digits r.value = some 890022063 ∧
        ((∀ v, 0 < v → v < 100 → fnv1a_hash_digits v ≠ some 890022063) → r.value = 0) :=
  ⟨by decide, by decide, by decide,
    find_hash_match_zero_target ⟨65536, 4, List.reverse, 0⟩ 8 890022063
      { start_range := 0, end_range := 100 } (by decide)
      (fun l => List.reverse_perm l) rfl (by decide) (by decide) (by decide) (by decide)⟩

/-- C6 fails in both directions.  On the range `[1, 2)` with the target
`fnv1a_hash_digits 0` the shared `found` flag stays false and the result has
`found = true`; on the range `[0, 1)` with the target `0x811c9dc5`
(2166136261) the shared flag is set, for the value 0, and the result has
`found = false`.  The result is decided from `result_value` and the hash of
0, not from the flag. -/
theorem find_hash_match_found_ignores_flag (host : Host) (fuel : Nat)
    (havx : is_avx512_available host = true)
    (hperm : ∀ l, (host.schedule l).Perm l) (hfuel : 1 < fuel) :
    (run_batches 890022063 { start_range := 1, end_range := 2 }
        (host.schedule (batch_starts_list { start_range := 1, end_range := 2 })) {} =
          some { found := false, result_value := 0, progress_counter := 1 } ∧
      (find_hash_match host fuel 890022063 { start_range := 1, end_range := 2 }).map
        Result.found = some true) ∧
    (run_batches 2166136261 { start_range := 0, end_range := 1 }
        (host.schedule (batch_starts_list { start_range := 0, end_range := 1 })) {} =
          some { found := true, result_value := 0, progress_counter := 0 } ∧
      (find_hash_match host fuel 2166136261 { start_range := 0, end_range := 1 }).map
        Result.found = some false) := by
  have hlistA : batch_starts_list { start_range := 1, end_range := 2 } = [1] := by decide
  have hlistB : batch_starts_list { start_range := 0, end_range := 1 } = [0] := by decide
  have hrunA : run_batches 890022063 { start_range := 1, end_range := 2 } [1] {} =
      some { progress_counter := 1 } := by decide
  have hrunB : run_batches 2166136261 { start_range := 0, end_range := 1 } [0] {} =
      some { found := true, result_value := 0, progress_counter := 0 } := by decide
  refine ⟨⟨?_, ?_⟩, ⟨?_, ?_⟩⟩
  · rw [hlistA, schedule_singleton host hperm, hrunA]
  · rw [find_hash_match_eq host fuel 890022063 _ havx (by norm_num)
      (by simpa using hfuel), hlistA, schedule_singleton host hperm, hrunA]
    show (fill_result host 890022063 { progress_counter := 1 }).map Result.found = _
    rw [fill_result_found host 890022063 _ (Or.inr rfl)]
    rfl
  · rw [hlistB, schedule_singleton host hperm, hrunB]
  · rw [find_hash_match_eq host fuel 2166136261 _ havx (by norm_num)
      (by simpa using hfuel), hlistB, schedule_singleton host hperm, hrunB]
    show (fill_result host 2166136261
      { found := true, result_value := 0, progress_counter := 0 }).map Result.found = _
    rw [fill_result_not_found host 2166136261 _ rfl (by decide)]
    rfl

theorem find_hash_match_found_ignores_flag_witness :
    is_avx512_available ⟨65536, 4, id, 0⟩ = true ∧ 1 < 2 ∧
      ((run_batches 890022063 { start_range := 1, end_range := 2 }
          ((⟨65536, 4, id, 0⟩ : Host).schedule
            (batch_starts_list { start_range := 1, end_range := 2 })) {} =
            some { found := false, result_value := 0, progress_counter := 1 } ∧
        (find_hash_match ⟨65536, 4, id, 0⟩ 2 890022063
          { start_range := 1, end_range := 2 }).map Result.found = some true) ∧
      (run_batches 2166136261 { start_range := 0, end_range := 1 }
          ((⟨65536, 4, id, 0⟩ : Host).schedule
            (batch_starts_list { start_range := 0, end_range := 1 })) {} =
            some { found := true, result_value := 0, progress_counter := 0 } ∧
        (find_hash_match ⟨65536, 4, id, 0⟩ 2 2166136261
          { start_range := 0, end_range := 1 }).map Result.found = some false)) :=
  ⟨by decide, by decide,
    find_hash_match_found_ignores_flag ⟨65536, 4, id, 0⟩ 2 (by decide)
      (fun l => List.Perm.refl l) (by decide)⟩

/-- C7: with the target `fnv1a_hash_digits 42` on the range `[0, 100)`, the
probe true, any order of the batches and enough fuel for the eight rounds of
the batch-start loop, `find_hash_match` returns `found = true`, `value = 42`,
`digits = "000000042"` and `total_checked <= 100`. -/
theorem find_hash_match_scenario (host : Host) (fuel target_hash : Nat)
    (config : Config)
    (havx : is_avx512_available host = true)
    (hperm : ∀ l, (host.schedule l).Perm l)
    (hstart : config.start_range = 0) (hend : config.end_range = 100)
    (hfuel : 7 < fuel)
    (htarget : fnv1a_hash_digits 42 = some target_hash) :
    ∃ r, find_hash_match host fuel target_hash config = some r ∧
      r.found = true ∧ r.value = 42 ∧ r.digits = "000000042" ∧
      r.total_checked ≤ 100 := by
  have h42 : fnv1a_hash_digits 42 = some 2279835011 := by decide
  have ht : target_hash = 2279835011 := by
    rw [h42] at htarget
    exact (Option.some.inj htarget).symm
  subst ht
  have hall : ∀ k, k < 100 → fnv1a_hash_digits k = some 2279835011 → k = 42 := by
    decide
  obtain ⟨r, hr, hfound, hvalue, hdigits, hchecked⟩ :=
    find_hash_match_unique host fuel 2279835011 config 42 havx hperm
      (by rw [hend]; norm_num) (by rw [hend, hstart]; simpa using hfuel)
      (by omega) (by omega) h42
      (fun v _ hv hh => hall v (by omega) hh)
      (fun _ => by decide)
  refine ⟨r, hr, hfound, hvalue, ?_, by omega⟩
  have hfmt : format_digits 42 = some "000000042" := by decide
  rw [hfmt] at hdigits
  exact (Option.some.inj hdigits).symm

theorem find_hash_match_scenario_witness :
    is_avx512_available ⟨65536, 4, List.reverse, 0⟩ = true ∧
      fnv1a_hash_digits 42 = some 2279835011 ∧
      ∃ r, find_hash_match ⟨65536, 4, List.reverse, 0⟩ 8 2279835011
          { start_range := 0, end_range := 100 } = some r ∧
        r.found = true ∧ r.value = 42 ∧ r.digits = "000000042" ∧
        r.total_checked ≤ 100 :=
  ⟨by decide, by decide,
    find_hash_match_scenario ⟨65536, 4, List.reverse, 0⟩ 8 2279835011
      { start_range := 0, end_range := 100 } (by decide)
      (fun l => List.reverse_perm l) rfl rfl (by decide) (by decide)⟩

/-- C8, at the range `[1000, 1016)` with the target 1: no value of the
range has the target hash, the range holds 16 values, and `find_hash_match`
returns `total_checked = 1000`, the start offset of the batch. -/
theorem find_hash_match_total_checked_offset (host : Host) (fuel : Nat)
    (havx : is_avx512_available host = true)
    (hperm : ∀ l, (host.schedule l).Perm l) (hfuel : 1 < fuel) :
    (∀ v, 1000 ≤ v → v < 1016 → fnv1a_hash_digits v ≠ some 1) ∧
      find_hash_match host fuel 1 { start_range := 1000, end_range := 1016 } =
        some { found := false, value := 0, digits := "",
               search_time_ms := host.duration_ms, total_checked := 1000 } := by
  refine ⟨?_, ?_⟩
  · intro v h1 h2
    have hall : ∀ k, k < 16 → fnv1a_hash_digits (1000 + k) ≠ some 1 := by decide
    have := hall (v - 1000) (by omega)
    rwa [show 1000 + (v - 1000) = v by omega] at this
  · have hlist : batch_starts_list { start_range := 1000, end_range := 1016 } = [1000] := by
      decide
    have hrun : run_batches 1 { start_range := 1000, end_range := 1016 } [1000] {} =
        some { progress_counter := 1000 } := by decide
    rw [find_hash_match_eq host fuel 1 _ havx (by norm_num) (by simpa using hfuel),
      hlist, schedule_singleton host hperm, hrun]
    show fill_result host 1 { progress_counter := 1000 } = _
    rw [fill_result_not_found host 1 _ rfl (by decide)]

theorem find_hash_match_total_checked_offset_witness :
    is_avx512_available ⟨65536, 4, id, 0⟩ = true ∧ 1 < 2 ∧
      ((∀ v, 1000 ≤ v → v < 1016 → fnv1a_hash_digits v ≠ some 1) ∧
        find_hash_match ⟨65536, 4, id, 0⟩ 2 1 { start_range := 1000, end_range := 1016 } =
          some { found := false, value := 0, digits := "",
                 search_time_ms := 0, total_checked := 1000 }) :=
  ⟨by decide, by decide,
    find_hash_match_total_checked_offset ⟨65536, 4, id, 0⟩ 2 (by decide)
      (fun l => List.Perm.refl l) (by decide)⟩

/-- The order of the batches decides `total_checked`: on the range
`[0, 100)` with the target 1, which no value of the range has, the batches
taken in decreasing order leave `total_checked = 0`, and in increasing
order 96. -/
theorem find_hash_match_total_checked_order :
    find_hash_match ⟨65536, 4, List.reverse, 0⟩ 8 1 { start_range := 0, end_range := 100 } =
        some { found := false, value := 0, digits := "", search_time_ms := 0,
               total_checked := 0 } ∧
      find_hash_match ⟨65536, 4, id, 0⟩ 8 1 { start_range := 0, end_range := 100 } =
        some { found := false, value := 0, digits := "", search_time_ms := 0,
               total_checked := 96 } := by
  constructor <;> decide

/-! ## The shared state, step by step -/

/-- One call of the lambda on a state without a match, for any batch start:
it returns, and either only `progress_counter` changed, to the batch start,
or the match was claimed and `progress_counter` is as before. -/
theorem process_batch_step (target_hash : Nat) (config : Config) (s : SearchState)
    (b : Nat) (hs : s.found = false) :
    ∃ s1, process_batch target_hash config s b = some s1 ∧
      (s1 = { s with progress_counter := b } ∨
        (s1.found = true ∧ s1.progress_counter = s.progress_counter ∧
          ∃ i : Fin 16, (b + i.val) % 2 ^ 64 < config.end_range ∧
            s1.result_value = (b + i.val) % 2 ^ 64)) := by
  obtain ⟨hashes, hbatch, _⟩ := hash_batch_lane (prepare_batch config b)
  rcases check_results_sound target_hash config b hashes (List.finRange 16) s hs with
    h | ⟨k, _, hkin, _, hres⟩
  · refine ⟨{ s with progress_counter := b }, ?_, Or.inl rfl⟩
    simp only [process_batch, hs, hbatch, h]
    rfl
  · refine ⟨{ found := true, result_value := (b + k.val) % 2 ^ 64,
                progress_counter := s.progress_counter }, ?_,
      Or.inr ⟨rfl, rfl, k, hkin, rfl⟩⟩
    simp only [process_batch, hs, hbatch, hres]
    rfl

theorem check_results_of_found (target_hash : Nat) (config : Config) (b : Nat)
    (hashes : Fin 16 → Nat) :
    ∀ (lanes : List (Fin 16)) (s : SearchState), s.found = true →
      check_results target_hash config b hashes lanes s = (s, false) := by
  intro lanes
  induction lanes with
  | nil => intro s _; rfl
  | cons i rest ih =>
    intro s hs
    by_cases hout : (b + i.val) % 2 ^ 64 ≥ config.end_range
    · exact check_results_cons_out _ _ _ _ _ _ _ hout
    · by_cases hhash : hashes i = target_hash
      · have hbeq : (hashes i == target_hash) = true := beq_iff_eq.mpr hhash
        have hnf : ¬ (!s.found) = true := by rw [hs]; decide
        have hsame : ({ s with found := true } : SearchState) = s := by
          cases s; simp only [SearchState.mk.injEq] at *; simp [hs]
        simp only [check_results]
        rw [if_neg hout, if_pos hbeq, if_neg hnf, hsame]
        exact ih s hs
      · rw [check_results_cons_skip _ _ _ _ _ _ _ hout hhash]
        exact ih s hs

theorem run_trace_found (target_hash : Nat) (config : Config) :
    ∀ (order : List Nat) (s : SearchState), s.found = true →
      run_trace target_hash config order s = some (List.replicate order.length s) := by
  intro order
  induction order with
  | nil => intro s _; rfl
  | cons b rest ih =>
    intro s hs
    simp only [run_trace, process_batch_found _ _ _ _ hs, ih s hs, Option.map_some',
      List.length_cons, List.replicate_succ]

/-- The states after each batch, from a state without a match: states
without a match and with the initial `result_value`, followed by copies of
one state with the match. -/
theorem run_trace_shape (target_hash : Nat) (config : Config) :
    ∀ (order : List Nat) (s : SearchState), s.found = false →
      ∃ pre sStar m, run_trace target_hash config order s =
          some (pre ++ List.replicate m sStar) ∧
        pre.length + m = order.length ∧
        (∀ t ∈ pre, t.found = false ∧ t.result_value = s.result_value) ∧
        sStar.found = true := by
  intro order
  induction order with
  | nil =>
    intro s _
    exact ⟨[], { found := true }, 0, rfl, rfl, by simp, rfl⟩
  | cons b rest ih =>
    intro s hs
    obtain ⟨s1, hstep, hcase⟩ := process_batch_step target_hash config s b hs
    rcases hcase with hs1 | ⟨hf1, _, _⟩
    · have hf1 : s1.found = false := by rw [hs1]; exact hs
      have hv1 : s1.result_value = s.result_value := by rw [hs1]
      obtain ⟨pre, sStar, m, hrun, hlen, hpre, hstar⟩ := ih s1 hf1
      refine ⟨s1 :: pre, sStar, m, ?_, ?_, ?_, hstar⟩
      · simp only [run_trace, hstep, hrun, Option.map_some', List.cons_append]
      · simp only [List.length_cons]; omega
      · intro t ht
        rcases List.mem_cons.mp ht with rfl | ht
        · exact ⟨hf1, hv1⟩
        · have := hpre t ht
          exact ⟨this.1, by rw [this.2, hv1]⟩
    · refine ⟨[], s1, rest.length + 1, ?_, ?_, by simp, hf1⟩
      · simp only [run_trace, hstep, run_trace_found _ _ rest s1 hf1, Option.map_some',
          List.nil_append, List.replicate_succ]
      · simp

/-- C12, on the range `[0, 32)` with the target 1, which no value of the
range has: the batch starts are 0 and 16, and when the batch at 16 is
processed before the batch at 0, `progress_counter` is 16 and then 0: the
plain store of the second batch lowers it. -/
theorem progress_counter_lowered :
    batch_starts_list { start_range := 0, end_range := 32 } = [0, 16] ∧
      run_trace 1 { start_range := 0, end_range := 32 } [16, 0] {} =
        some [{ progress_counter := 16 }, { progress_counter := 0 }] ∧
      process_batch 1 { start_range := 0, end_range := 32 } { progress_counter := 16 } 0 =
        some { progress_counter := 0 } ∧
      find_hash_match ⟨65536, 4, List.reverse, 0⟩ 3 1 { start_range := 0, end_range := 32 } =
        some { found := false, value := 0, digits := "", search_time_ms := 0,
               total_checked := 0 } := by
  refine ⟨by decide, by decide, by decide, by decide⟩

/-- C14: when the probe is false, `find_hash_match` returns the
zero-initialized result, for every target and config and with any fuel,
also none: no loop runs and no hash is computed. -/
theorem find_hash_match_fails_closed (host : Host) (fuel target_hash : Nat)
    (config : Config) (hprobe : is_avx512_available host = false) :
    find_hash_match host fuel target_hash config =
      some { found := false, value := 0, digits := "", search_time_ms := 0,
             total_checked := 0 } := by
  simp [find_hash_match, hprobe]

theorem find_hash_match_fails_closed_witness :
    is_avx512_available ⟨0, 4, id, 7⟩ = false ∧
      find_hash_match ⟨0, 4, id, 7⟩ 0 2279835011 { start_range := 0, end_range := 100 } =
        some { found := false, value := 0, digits := "", search_time_ms := 0,
               total_checked := 0 } :=
  ⟨by decide, find_hash_match_fails_closed ⟨0, 4, id, 7⟩ 0 2279835011
    { start_range := 0, end_range := 100 } (by decide)⟩

theorem div10_loop_eq : ∀ (p n : Nat), div10_loop p n = n / 10 ^ p := by
  intro p
  induction p with
  | zero => intro n; simp [div10_loop]
  | succ p ih =>
    intro n
    rw [div10_loop_succ, ih, Nat.div_div_eq_div_mul, pow_succ, Nat.mul_comm]

/-- C17: a lane whose value is at least 1 holds `fnv1a_hash_digits` of that
value, whatever the other fifteen lanes hold; and at digit position `p` the
mask bit of the lane is clear exactly when the value is below `10^p`, that
is when `p` lies above its most significant digit. -/
theorem hash_batch_positive_lane (numbers : Fin 16 → Nat) (i : Fin 16)
    (hpos : 1 ≤ numbers i) (hlt : numbers i < 2 ^ 64) :
    ∃ hashes, hash_batch numbers = some hashes ∧
      fnv1a_hash_digits (numbers i) = some (hashes i) ∧
      ∀ p, mm512_cmpneq_epi32_mask (digit_array numbers p) mm512_setzero_si512 i = false ↔
        numbers i < 10 ^ p := by
  obtain ⟨hashes, hrun, hlane⟩ := hash_batch_lane numbers
  refine ⟨hashes, hrun, ?_, ?_⟩
  · rw [hlane i, fnv1a_hash_digits_pos (numbers i) hlt (by omega)]
  · intro p
    have hp : 0 < 10 ^ p := Nat.pow_pos (by norm_num)
    simp only [mm512_cmpneq_epi32_mask, mm512_setzero_si512, digit_array, div10_loop_eq]
    by_cases hbelow : numbers i < 10 ^ p
    · have hz : numbers i / 10 ^ p = 0 := Nat.div_eq_of_lt hbelow
      simp [hz, hbelow]
    · have hge : 0 < numbers i / 10 ^ p := Nat.div_pos (by omega) hp
      simp [hge, hbelow]

theorem hash_batch_positive_lane_witness :
    1 ≤ (fun i : Fin 16 => [0, 9, 10, 99, 100, 18446744073709551615].getD i.val 7) 5 ∧
      (fun i : Fin 16 => [0, 9, 10, 99, 100, 18446744073709551615].getD i.val 7) 5 < 2 ^ 64 ∧
      ∃ hashes,
        hash_batch (fun i : Fin 16 => [0, 9, 10, 99, 100, 18446744073709551615].getD i.val 7) =
          some hashes ∧
        fnv1a_hash_digits
            ((fun i : Fin 16 => [0, 9, 10, 99, 100, 18446744073709551615].getD i.val 7) 5) =
          some (hashes 5) ∧
        ∀ p, mm512_cmpneq_epi32_mask
              (digit_array
                (fun i : Fin 16 => [0, 9, 10, 99, 100, 18446744073709551615].getD i.val 7) p)
              mm512_setzero_si512 5 = false ↔
          (fun i : Fin 16 => [0, 9, 10, 99, 100, 18446744073709551615].getD i.val 7) 5 <
            10 ^ p :=
  ⟨by decide, by decide,
    hash_batch_positive_lane
      (fun i : Fin 16 => [0, 9, 10, 99, 100, 18446744073709551615].getD i.val 7) 5
      (by decide) (by decide)⟩

/-! ## When the batch-start loop stops -/

/-- When every 64-bit value in the residue class of `i` modulo 16 lies below
`end_range`, the loop never reaches a value that stops it. -/
theorem batch_starts_loop_cycles (end_range : Nat) :
    ∀ (fuel i : Nat) (acc : List Nat), i < 2 ^ 64 →
      (∀ x, x < 2 ^ 64 → x % 16 = i % 16 → x < end_range) →
      batch_starts_loop fuel i end_range acc = none := by
  intro fuel
  induction fuel with
  | zero => intro i acc _ _; rfl
  | succ fuel ih =>
    intro i acc hi hclass
    have hlt : i < end_range := hclass i hi rfl
    simp only [batch_starts_loop]
    rw [if_pos hlt]
    refine ih _ _ (Nat.mod_lt _ (by norm_num)) ?_
    intro x hx hres
    exact hclass x hx (by omega)

/-- When the loop stops, every batch start it pushed lies below `end_range`
and more than sixteen below `2^64`, so that no lane value of a batch wraps. -/
theorem batch_starts_loop_sound (end_range : Nat) :
    ∀ (fuel i : Nat) (acc l : List Nat), i < 2 ^ 64 →
      batch_starts_loop fuel i end_range acc = some l →
      ∃ pushed, l = acc ++ pushed ∧ ∀ b ∈ pushed, b < end_range ∧ b + 16 < 2 ^ 64 := by
  intro fuel
  induction fuel with
  | zero => intro i acc l _ h; cases h
  | succ fuel ih =>
    intro i acc l hi hrun
    by_cases hlt : i < end_range
    · simp only [batch_starts_loop] at hrun
      rw [if_pos hlt] at hrun
      have hnowrap : i + 16 < 2 ^ 64 := by
        by_contra hwrap
        have hnone := batch_starts_loop_cycles end_range fuel ((i + 16) % 2 ^ 64)
          (acc ++ [i]) (Nat.mod_lt _ (by norm_num)) (by
            intro x hx hres
            have : x ≤ i := by omega
            omega)
        rw [hnone] at hrun
        cases hrun
      obtain ⟨pushed, hl, hall⟩ := ih _ _ l (Nat.mod_lt _ (by norm_num)) hrun
      refine ⟨i :: pushed, by rw [hl]; simp, ?_⟩
      intro b hb
      rcases List.mem_cons.mp hb with rfl | hb
      · exact ⟨hlt, hnowrap⟩
      · exact hall b hb
    · simp only [batch_starts_loop] at hrun
      rw [if_neg hlt] at hrun
      exact ⟨[], by rw [← Option.some.inj hrun]; simp, by simp⟩

/-- C19, at `start_range = 2^64 - 18` and `end_range = 2^64 - 1`: the loop
pushes `2^64 - 18` and `2^64 - 2`, wraps to 14 and goes on through the
values that are 14 modulo 16, all below `end_range`; with any fuel it does
not stop. -/
theorem batch_starts_loop_never_stops (fuel : Nat) (acc : List Nat) :
    (18446744073709551598 : Nat) < 18446744073709551615 ∧
      (18446744073709551615 : Nat) < 2 ^ 64 ∧
      (18446744073709551598 + 16) % 2 ^ 64 = 18446744073709551614 ∧
      (18446744073709551614 + 16) % 2 ^ 64 = 14 ∧
      batch_starts_loop fuel 18446744073709551598 18446744073709551615 acc = none := by
  refine ⟨by norm_num, by norm_num, by norm_num, by norm_num, ?_⟩
  have h := batch_starts_loop_diverges fuel 18446744073709551598 acc
    (by norm_num) (by norm_num)
  have he : (18446744073709551615 : Nat) = 2 ^ 64 - 1 := by norm_num
  rw [he]
  exact h

/-! ## What a returned result says -/

/-- A result of `find_hash_match` with the probe true comes from batch
starts on which the loop stopped and from a final state of the batches. -/
theorem find_hash_match_some (host : Host) (fuel target_hash : Nat) (config : Config)
    (r : Result) (havx : is_avx512_available host = true)
    (hres : find_hash_match host fuel target_hash config = some r) :
    ∃ l s, batch_starts_loop fuel config.start_range config.end_range [] = some l ∧
      run_batches target_hash config (host.schedule l) {} = some s ∧
      fill_result host target_hash s = some r := by
  unfold find_hash_match at hres
  rw [havx] at hres
  simp only [Bool.not_true, Bool.false_eq_true, if_false] at hres
  cases hl : batch_starts_loop fuel config.start_range config.end_range [] with
  | none => rw [hl] at hres; cases hres
  | some l =>
    rw [hl] at hres
    simp only [] at hres
    cases hs : run_batches target_hash config (host.schedule l) {} with
    | none => rw [hs] at hres; cases hres
    | some s =>
      rw [hs] at hres
      exact ⟨l, s, rfl, hs, hres⟩

/-- The search on an empty or inverted range, with a target other than the
hash of 0: no batch, and the result has `found = false`. -/
theorem find_hash_match_empty_range_other (host : Host) (fuel target_hash : Nat)
    (config : Config) (havx : is_avx512_available host = true)
    (hperm : ∀ l, (host.schedule l).Perm l)
    (hrange : config.end_range ≤ config.start_range) (hfuel : 0 < fuel)
    (ht : target_hash ≠ 890022063) :
    find_hash_match host fuel target_hash config =
      some { search_time_ms := host.duration_ms, total_checked := 0 } := by
  obtain ⟨f, rfl⟩ : ∃ f, fuel = f + 1 := ⟨fuel - 1, by omega⟩
  have hnil : host.schedule [] = [] := List.Perm.eq_nil (hperm [])
  have hnot : ¬ config.start_range < config.end_range := by omega
  unfold find_hash_match
  rw [havx]
  simp only [Bool.not_true, Bool.false_eq_true, if_false, batch_starts_loop]
  rw [if_neg hnot]
  simp only [hnil, run_batches, List.foldlM_nil]
  exact fill_result_not_found host target_hash {} rfl ht

/-- C13, at any empty or inverted range with the target
`fnv1a_hash_digits 0` (890022063): the batch-start loop pushes nothing, no
batch is processed, and `find_hash_match` returns `found = true` with the
value 0. -/
theorem find_hash_match_empty_range_reports_zero (host : Host) (fuel : Nat)
    (config : Config) (havx : is_avx512_available host = true)
    (hperm : ∀ l, (host.schedule l).Perm l)
    (hrange : config.end_range ≤ config.start_range) (hfuel : 0 < fuel) :
    batch_starts_loop fuel config.start_range config.end_range [] = some [] ∧
      host.schedule [] = [] ∧
      find_hash_match host fuel 890022063 config =
        some { found := true, value := 0, digits := "000000000",
               search_time_ms := host.duration_ms, total_checked := 0 } := by
  obtain ⟨f, rfl⟩ : ∃ f, fuel = f + 1 := ⟨fuel - 1, by omega⟩
  have hnil : host.schedule [] = [] := List.Perm.eq_nil (hperm [])
  have hnot : ¬ config.start_range < config.end_range := by omega
  have hloop : batch_starts_loop (f + 1) config.start_range config.end_range [] =
      some [] := by
    simp only [batch_starts_loop]
    rw [if_neg hnot]
  refine ⟨hloop, hnil, ?_⟩
  unfold find_hash_match
  rw [havx, hloop]
  simp only [Bool.not_true, Bool.false_eq_true, if_false, hnil, run_batches,
    List.foldlM_nil]
  show fill_result host 890022063 {} = _
  rw [fill_result_found host 890022063 {} (Or.inr rfl)]
  rfl

theorem find_hash_match_empty_range_reports_zero_witness :
    is_avx512_available ⟨65536, 4, id, 0⟩ = true ∧
      (5 : Nat) ≤ 10 ∧ 0 < 1 ∧
      (batch_starts_loop 1 10 5 [] = some [] ∧
        (⟨65536, 4, id, 0⟩ : Host).schedule [] = [] ∧
        find_hash_match ⟨65536, 4, id, 0⟩ 1 890022063 { start_range := 10, end_range := 5 } =
          some { found := true, value := 0, digits := "000000000",
                 search_time_ms := 0, total_checked := 0 }) :=
  ⟨by decide, by decide, by decide,
    find_hash_match_empty_range_reports_zero ⟨65536, 4, id, 0⟩ 1
      { start_range := 10, end_range := 5 } (by decide) (fun l => List.Perm.refl l)
      (by decide) (by decide)⟩

/-- C18: whenever `find_hash_match` returns a result with `found = true`,
for any target, any config whose `start_range` is a 64-bit value, and any
order of the batches, the scalar hash of the reported value is the target
and `digits` is `format_digits` of the value with width 9. -/
theorem find_hash_match_found_sound (host : Host) (fuel target_hash : Nat)
    (config : Config) (r : Result)
    (hstart : config.start_range < 2 ^ 64)
    (hperm : ∀ l, (host.schedule l).Perm l)
    (hres : find_hash_match host fuel target_hash config = some r)
    (hfound : r.found = true) :
    fnv1a_hash_digits r.value = some target_hash ∧
      format_digits r.value 9 = some r.digits := by
  cases havx : is_avx512_available host with
  | false =>
    simp only [find_hash_match, havx, Bool.not_false, if_true] at hres
    rw [← Option.some.inj hres] at hfound
    cases hfound
  | true =>
    obtain ⟨l, s, hl, hs, hfill⟩ :=
      find_hash_match_some host fuel target_hash config r havx hres
    obtain ⟨pushed, hlp, hpushed⟩ :=
      batch_starts_loop_sound config.end_range fuel config.start_range [] l hstart hl
    have hwrap : ∀ b ∈ host.schedule l, b + 16 ≤ 2 ^ 64 := by
      intro b hb
      have hbl : b ∈ pushed := by
        have := (hperm l).mem_iff.mp hb
        rw [hlp] at this
        simpa using this
      have := hpushed b hbl
      omega
    obtain ⟨s1, hrun, hcase⟩ :=
      run_batches_spec target_hash config (host.schedule l) {} rfl hwrap
    rw [hs] at hrun
    have hs1 : s = s1 := Option.some.inj hrun
    subst hs1
    by_cases hpos : 0 < s.result_value
    · rw [fill_result_found host target_hash s (Or.inl hpos)] at hfill
      rw [← Option.some.inj hfill]
      refine ⟨?_, format_digits_eq s.result_value 9⟩
      show fnv1a_hash_digits s.result_value = some target_hash
      rcases hcase with ⟨hinit, _⟩ | ⟨_, ⟨b, hb, v, hv1, hv2, _, hv4, hv5⟩, _⟩
      · rw [hinit] at hpos
        exact absurd hpos (Nat.lt_irrefl 0)
      · have hb16 := hwrap b hb
        rw [hv5]
        rw [hv5] at hpos
        exact (lane_hash_eq_scalar v target_hash (by omega) hpos).mp hv4
    · have hz : s.result_value = 0 := by omega
      by_cases ht : target_hash = 890022063
      · rw [fill_result_found host target_hash s (Or.inr ht)] at hfill
        rw [← Option.some.inj hfill]
        refine ⟨?_, format_digits_eq s.result_value 9⟩
        show fnv1a_hash_digits s.result_value = some target_hash
        rw [hz, ht]
        exact fnv1a_hash_digits_zero
      · rw [fill_result_not_found host target_hash s hz ht] at hfill
        rw [← Option.some.inj hfill] at hfound
        cases hfound

theorem find_hash_match_found_sound_witness :
    (0 : Nat) < 2 ^ 64 ∧
      find_hash_match ⟨65536, 4, List.reverse, 0⟩ 8 2279835011
          { start_range := 0, end_range := 100 } =
        some { found := true, value := 42, digits := "000000042",
               search_time_ms := 0, total_checked := 48 } ∧
      fnv1a_hash_digits 42 = some 2279835011 ∧
      format_digits 42 9 = some "000000042" :=
  ⟨by decide, by decide,
    find_hash_match_found_sound ⟨65536, 4, List.reverse, 0⟩ 8 2279835011
      { start_range := 0, end_range := 100 }
      { found := true, value := 42, digits := "000000042",
        search_time_ms := 0, total_checked := 48 }
      (by decide) (fun l => List.reverse_perm l) (by decide) rfl⟩

/-! ## The batches cover the range -/

theorem guarded_lanes_consecutive (config : Config) (b : Nat) (hb : b + 16 ≤ 2 ^ 64) :
    ∀ (lanes : List (Fin 16)) (j m : Nat), lanes.map Fin.val = List.range' j m →
      guarded_lanes config b lanes =
        List.range' (b + j) (min m (config.end_range - (b + j))) := by
  intro lanes
  induction lanes with
  | nil =>
    intro j m h
    cases m with
    | zero => simp [guarded_lanes]
    | succ m => rw [List.range'_succ] at h; cases h
  | cons i rest ih =>
    intro j m h
    cases m with
    | zero => simp at h
    | succ m =>
      rw [List.range'_succ, List.map_cons] at h
      have hij : i.val = j := (List.cons.inj h).1
      have hrest : rest.map Fin.val = List.range' (j + 1) m := (List.cons.inj h).2
      have hmod : (b + i.val) % 2 ^ 64 = b + j := by
        rw [hij]
        have := i.isLt
        exact Nat.mod_eq_of_lt (by omega)
      simp only [guarded_lanes, hmod]
      by_cases hout : b + j ≥ config.end_range
      · rw [if_pos hout]
        have hz : min (m + 1) (config.end_range - (b + j)) = 0 := by omega
        rw [hz, List.range'_zero]
      · rw [if_neg hout, ih (j + 1) m hrest]
        have hk : min (m + 1) (config.end_range - (b + j)) =
            min m (config.end_range - (b + (j + 1))) + 1 := by omega
        rw [hk, List.range'_succ]
        rfl

theorem guarded_lanes_eq (config : Config) (b : Nat) (hb : b + 16 ≤ 2 ^ 64) :
    guarded_lanes config b (List.finRange 16) =
      List.range' b (min 16 (config.end_range - b)) := by
  have h := guarded_lanes_consecutive config b hb (List.finRange 16) 0 16 (by decide)
  simpa using h

theorem guarded_lanes_cover (config : Config) (hend : config.end_range + 16 ≤ 2 ^ 64) :
    ∀ (n start : Nat), (config.end_range - start + 15) / 16 = n →
      ((List.range n).map (fun k => start + 16 * k)).flatMap
          (fun b => guarded_lanes config b (List.finRange 16)) =
        List.range' start (config.end_range - start) := by
  intro n
  induction n with
  | zero =>
    intro start h
    have hz : config.end_range - start = 0 := by omega
    simp [hz]
  | succ n ih =>
    intro start h
    have hlt : start < config.end_range := by omega
    have hrec := ih (start + 16) (by omega)
    have hmap : (List.range n).map (fun k => start + 16 * (k + 1)) =
        (List.range n).map (fun k => start + 16 + 16 * k) := by
      apply List.map_congr_left
      intro k _
      omega
    rw [List.range_succ_eq_map, List.map_cons, List.map_map, List.flatMap_cons]
    simp only [Nat.mul_zero, Nat.add_zero]
    have hcomp : ((fun k => start + 16 * k) ∘ Nat.succ) = fun k => start + 16 * (k + 1) := rfl
    rw [hcomp, hmap, hrec, guarded_lanes_eq config start (by omega)]
    by_cases hfull : 16 ≤ config.end_range - start
    · have h16 : min 16 (config.end_range - start) = 16 := by omega
      rw [h16, List.range'_append_1]
      congr 1
      omega
    · have hmin : min 16 (config.end_range - start) = config.end_range - start := by omega
      have hz : config.end_range - (start + 16) = 0 := by omega
      rw [hmin, hz, List.range'_zero, List.append_nil]

theorem check_results_congr (target_hash : Nat) (config : Config) (b : Nat)
    (hashes1 hashes2 : Fin 16 → Nat) :
    ∀ (lanes : List (Fin 16)) (s : SearchState),
      (∀ i ∈ lanes, (b + i.val) % 2 ^ 64 < config.end_range → hashes1 i = hashes2 i) →
      check_results target_hash config b hashes1 lanes s =
        check_results target_hash config b hashes2 lanes s := by
  intro lanes
  induction lanes with
  | nil => intro s _; rfl
  | cons i rest ih =>
    intro s h
    have hrest : ∀ k ∈ rest, (b + k.val) % 2 ^ 64 < config.end_range →
        hashes1 k = hashes2 k := fun k hk => h k (List.mem_cons_of_mem i hk)
    by_cases hout : (b + i.val) % 2 ^ 64 ≥ config.end_range
    · rw [check_results_cons_out _ _ _ _ _ _ _ hout,
        check_results_cons_out _ _ _ _ _ _ _ hout]
    · have heq : hashes1 i = hashes2 i := h i (List.mem_cons_self i rest) (by omega)
      simp only [check_results]
      rw [if_neg hout, if_neg hout, heq, ih _ hrest, ih s hrest]

/-- The static picture of the batches: the starts, the clamped lane values,
and the lane values that pass the guard of the checking loop. -/
theorem batches_cover_range (fuel : Nat) (config : Config)
    (hlt : config.start_range < config.end_range)
    (hend : config.end_range + 16 ≤ 2 ^ 64)
    (hfuel : (config.end_range - config.start_range + 15) / 16 < fuel) :
    batch_starts_loop fuel config.start_range config.end_range [] =
        some ((List.range ((config.end_range - config.start_range + 15) / 16)).map
          (fun k => config.start_range + 16 * k)) ∧
      (config.end_range = config.start_range + 1 →
        batch_starts_loop fuel config.start_range config.end_range [] =
          some [config.start_range]) ∧
      (∀ b ∈ batch_starts_list config, ∀ i : Fin 16,
        config.start_range ≤ prepare_batch config b i ∧
          prepare_batch config b i < config.end_range) ∧
      (batch_starts_list config).flatMap
          (fun b => guarded_lanes config b (List.finRange 16)) =
        List.range' config.start_range (config.end_range - config.start_range) ∧
      (∀ order : List Nat, order.Perm (batch_starts_list config) →
        (order.flatMap (fun b => guarded_lanes config b (List.finRange 16))).Perm
          (List.range' config.start_range (config.end_range - config.start_range))) ∧
      (∀ target_hash b hashes1 hashes2 s,
        (∀ i : Fin 16, (b + i.val) % 2 ^ 64 < config.end_range → hashes1 i = hashes2 i) →
        check_results target_hash config b hashes1 (List.finRange 16) s =
          check_results target_hash config b hashes2 (List.finRange 16) s) ∧
      (∀ target_hash s s1, ∀ b ∈ batch_starts_list config, s.found = false →
        process_batch target_hash config s b = some s1 → s1.found = true →
        ∃ i : Fin 16, s1.result_value = b + i.val ∧ b + i.val < config.end_range ∧
          config.start_range ≤ b + i.val ∧ prepare_batch config b i = b + i.val) ∧
      ∀ target_hash s, ∀ b ∈ batch_starts_list config, s.found = false →
        ∀ v ∈ guarded_lanes config b (List.finRange 16), lane_hash v = target_hash →
        ∃ s1, process_batch target_hash config s b = some s1 ∧ s1.found = true := by
  have hloop := batch_starts_loop_spec config.end_range hend fuel config.start_range []
    hfuel
  rw [List.nil_append] at hloop
  have hbatch : ∀ b ∈ batch_starts_list config,
      config.start_range ≤ b ∧ b < config.end_range := by
    intro b hb
    obtain ⟨k, hk, rfl⟩ := (mem_batch_starts_list config b).mp hb
    omega
  have hcover : (batch_starts_list config).flatMap
      (fun b => guarded_lanes config b (List.finRange 16)) =
      List.range' config.start_range (config.end_range - config.start_range) :=
    guarded_lanes_cover config hend _ config.start_range rfl
  refine ⟨hloop, ?_, ?_, hcover, ?_, ?_, ?_, ?_⟩
  · intro hone
    rw [hloop]
    have hn : (config.end_range - config.start_range + 15) / 16 = 1 := by omega
    rw [hn]
    rfl
  · intro b hb i
    have hbr := hbatch b hb
    have hi := i.isLt
    have hmod : (b + i.val) % 2 ^ 64 = b + i.val := Nat.mod_eq_of_lt (by omega)
    have hclamp : (config.end_range + 2 ^ 64 - 1) % 2 ^ 64 = config.end_range - 1 := by
      have : config.end_range + 2 ^ 64 - 1 = config.end_range - 1 + 2 ^ 64 := by omega
      rw [this, Nat.add_mod_right]
      exact Nat.mod_eq_of_lt (by omega)
    simp only [prepare_batch, hmod, hclamp]
    by_cases hout : b + i.val ≥ config.end_range
    · rw [if_pos hout]; omega
    · rw [if_neg hout]; omega
  · intro order hperm
    have h := List.Perm.flatMap_right
      (fun b => guarded_lanes config b (List.finRange 16)) hperm
    rw [hcover] at h
    exact h
  · intro target_hash b hashes1 hashes2 s h
    exact check_results_congr target_hash config b hashes1 hashes2 (List.finRange 16) s
      (fun i _ hi => h i hi)
  · intro target_hash s s1 b hb hs hstep hf1
    have hbr := hbatch b hb
    obtain ⟨s2, hstep2, hcase⟩ := process_batch_step target_hash config s b hs
    rw [hstep] at hstep2
    have h12 : s1 = s2 := Option.some.inj hstep2
    subst h12
    rcases hcase with hs1 | ⟨_, _, i, hin, hval⟩
    · rw [hs1] at hf1
      rw [hs] at hf1
      cases hf1
    · have hi := i.isLt
      have hmod : (b + i.val) % 2 ^ 64 = b + i.val := Nat.mod_eq_of_lt (by omega)
      rw [hmod] at hin hval
      refine ⟨i, hval, hin, by omega, ?_⟩
      simp only [prepare_batch, hmod]
      rw [if_neg (by omega)]
  · intro target_hash s b hb hs v hv hhash
    have hbr := hbatch b hb
    rw [guarded_lanes_eq config b (by omega), List.mem_range'_1] at hv
    obtain ⟨s1, hstep, hcase⟩ := process_batch_spec target_hash config s b hs (by omega)
    refine ⟨s1, hstep, ?_⟩
    rcases hcase with ⟨_, hmiss⟩ | ⟨_, _, _, _, _, hs1⟩
    · exact absurd hhash (hmiss v (by omega) (by omega) (by omega))
    · rw [hs1]

theorem batches_cover_range_witness :
    (95 : Nat) < 100 ∧ 100 + 16 ≤ 2 ^ 64 ∧
      batch_starts_loop 2 95 100 [] = some [95] ∧
      (batch_starts_list { start_range := 95, end_range := 100 }).flatMap
          (fun b => guarded_lanes { start_range := 95, end_range := 100 } b
            (List.finRange 16)) =
        [95, 96, 97, 98, 99] :=
  have h := batches_cover_range 2 { start_range := 95, end_range := 100 }
    (by decide) (by decide) (by decide)
  ⟨by decide, by decide, h.1, h.2.2.2.1⟩

/-! ## The lanes that are compared, in a run -/

theorem worker_step_total (target_hash : Nat) (config : Config) (s : SearchState) :
    ∀ w : Worker, ∃ r, worker_step target_hash config s w = some r := by
  intro w
  cases w with
  | ready b =>
    obtain ⟨hashes, hbatch, _⟩ := hash_batch_lane (prepare_batch config b)
    cases hf : s.found with
    | true =>
      refine ⟨(s, Worker.done, Event.skipped b), ?_⟩
      simp only [worker_step, hf, if_true]
    | false =>
      refine ⟨(s, Worker.checking b hashes (List.finRange 16), Event.hashed b), ?_⟩
      simp only [worker_step, hf, hbatch]
      rfl
  | checking b hashes lanes =>
    cases lanes with
    | nil => exact ⟨_, rfl⟩
    | cons i rest =>
      simp only [worker_step]
      split_ifs <;> exact ⟨_, rfl⟩
  | storing b v => exact ⟨_, rfl⟩
  | done => exact ⟨_, rfl⟩

/-- What one step of a worker can do to the atomics.  `found` never goes
back to false and turns true exactly in an exchange that found it false;
`result_value` changes only in a `result_value.store`, taken by a worker
that stood before it; and the stores that can still happen go down by one
with each store and never up. -/
theorem worker_step_effect (target_hash : Nat) (config : Config) (s s1 : SearchState)
    (w w1 : Worker) (ev : Event)
    (h : worker_step target_hash config s w = some (s1, w1, ev)) :
    (s.found = true → s1.found = true) ∧
      (ev.is_claim = true ↔ s.found = false ∧ s1.found = true) ∧
      (ev.is_result_store = false → s1.result_value = s.result_value) ∧
      (ev.is_result_store = true → w.is_storing = true) ∧
      (if ev.is_result_store then 1 else 0) + (if w1.is_storing then 1 else 0) +
          (if s1.found then 0 else 1) =
        (if w.is_storing then 1 else 0) + (if s.found then 0 else 1) := by
  cases w with
  | ready b =>
    cases hf : s.found with
    | true =>
      simp only [worker_step, hf, if_true, Option.some.injEq, Prod.mk.injEq] at h
      obtain ⟨rfl, rfl, rfl⟩ := h
      simp [Event.is_claim, Event.is_result_store, Worker.is_storing, hf]
    | false =>
      simp only [worker_step, hf] at h
      cases hb : hash_batch (prepare_batch config b) with
      | none => rw [hb] at h; simp at h
      | some hashes =>
        rw [hb] at h
        simp only [Bool.false_eq_true, if_false, Option.some.injEq, Prod.mk.injEq] at h
        obtain ⟨rfl, rfl, rfl⟩ := h
        simp [Event.is_claim, Event.is_result_store, Worker.is_storing, hf]
  | checking b hashes lanes =>
    cases lanes with
    | nil =>
      simp only [worker_step, Option.some.injEq, Prod.mk.injEq] at h
      obtain ⟨rfl, rfl, rfl⟩ := h
      cases hf : s.found <;>
        simp [Event.is_claim, Event.is_result_store, Worker.is_storing, hf]
    | cons i rest =>
      simp only [worker_step] at h
      by_cases hout : (b + i.val) % 2 ^ 64 ≥ config.end_range
      · rw [if_pos hout] at h
        simp only [Option.some.injEq, Prod.mk.injEq] at h
        obtain ⟨rfl, rfl, rfl⟩ := h
        cases hf : s.found <;>
          simp [Event.is_claim, Event.is_result_store, Worker.is_storing, hf]
      · by_cases hbeq : (hashes i == target_hash) = true
        · rw [if_neg hout, if_pos hbeq] at h
          simp only [Option.some.injEq, Prod.mk.injEq] at h
          obtain ⟨rfl, rfl, rfl⟩ := h
          cases hf : s.found <;>
            simp [Event.is_claim, Event.is_result_store, Worker.is_storing, hf]
        · rw [if_neg hout, if_neg hbeq] at h
          simp only [Option.some.injEq, Prod.mk.injEq] at h
          obtain ⟨rfl, rfl, rfl⟩ := h
          cases hf : s.found <;>
            simp [Event.is_claim, Event.is_result_store, Worker.is_storing, hf]
  | storing b v =>
    simp only [worker_step, Option.some.injEq, Prod.mk.injEq] at h
    obtain ⟨rfl, rfl, rfl⟩ := h
    cases hf : s.found <;>
      simp [Event.is_claim, Event.is_result_store, Worker.is_storing, hf]
  | done =>
    simp only [worker_step, Option.some.injEq, Prod.mk.injEq] at h
    obtain ⟨rfl, rfl, rfl⟩ := h
    cases hf : s.found <;>
      simp [Event.is_claim, Event.is_result_store, Worker.is_storing, hf]

theorem countP_set_balance (p : Worker → Bool) :
    ∀ (l : List Worker) (k : Nat) (w w1 : Worker), l.get? k = some w →
      (l.set k w1).countP p + (if p w then 1 else 0) =
        l.countP p + (if p w1 then 1 else 0) := by
  intro l
  induction l with
  | nil => intro k w w1 h; simp at h
  | cons x rest ih =>
    intro k w w1 h
    cases k with
    | zero =>
      simp only [List.get?_cons_zero, Option.some.injEq] at h
      subst h
      simp only [List.set_cons_zero, List.countP_cons]
      omega
    | succ k =>
      simp only [List.get?_cons_succ] at h
      have := ih k w w1 h
      simp only [List.set_cons_succ, List.countP_cons]
      omega

theorem system_step_total (target_hash : Nat) (config : Config) (k : Nat)
    (sys : System) : ∃ r, system_step target_hash config k sys = some r := by
  unfold system_step
  cases hk : sys.workers.get? k with
  | none => exact ⟨_, rfl⟩
  | some w =>
    obtain ⟨⟨s1, w1, ev⟩, hw⟩ := worker_step_total target_hash config sys.shared w
    simp only [hw]
    exact ⟨_, rfl⟩

/-- What one step of the system can do, for any worker taking it. -/
theorem system_step_effect (target_hash : Nat) (config : Config) (k : Nat)
    (sys sys1 : System) (ev : Event)
    (h : system_step target_hash config k sys = some (sys1, ev)) :
    (sys.shared.found = true → sys1.shared.found = true) ∧
      (ev.is_claim = true ↔ sys.shared.found = false ∧ sys1.shared.found = true) ∧
      (ev.is_result_store = false →
        sys1.shared.result_value = sys.shared.result_value) ∧
      (if ev.is_result_store then 1 else 0) + stores_left sys1 = stores_left sys := by
  unfold system_step at h
  cases hk : sys.workers.get? k with
  | none =>
    rw [hk] at h
    simp only [Option.some.injEq, Prod.mk.injEq] at h
    obtain ⟨rfl, rfl⟩ := h
    cases hf : sys.shared.found <;> simp [Event.is_claim, Event.is_result_store, hf]
  | some w =>
    rw [hk] at h
    obtain ⟨⟨s1, w1, ev1⟩, hw⟩ := worker_step_total target_hash config sys.shared w
    simp only [hw, Option.some.injEq, Prod.mk.injEq] at h
    obtain ⟨rfl, rfl⟩ := h
    obtain ⟨hmono, hclaim, hvalue, _, hbal⟩ :=
      worker_step_effect target_hash config sys.shared s1 w w1 ev1 hw
    refine ⟨hmono, hclaim, hvalue, ?_⟩
    have hcount := countP_set_balance Worker.is_storing sys.workers k w w1 hk
    simp only [stores_left]
    omega

theorem run_schedule_total (target_hash : Nat) (config : Config) :
    ∀ (schedule : List Nat) (sys : System),
      ∃ r, run_schedule target_hash config schedule sys = some r := by
  intro schedule
  induction schedule with
  | nil => intro sys; exact ⟨_, rfl⟩
  | cons k rest ih =>
    intro sys
    obtain ⟨⟨sys1, ev⟩, hstep⟩ := system_step_total target_hash config k sys
    obtain ⟨⟨sys2, evs⟩, hrun⟩ := ih sys1
    exact ⟨(sys2, ev :: evs), by simp only [run_schedule, hstep, hrun]⟩

/-- Over any execution, the stores of `result_value` that happened and
those that can still happen add up to what could happen at the start, and
the same for the turns of `found` from false to true; `found` stays true
once it is true. -/
theorem run_schedule_balance (target_hash : Nat) (config : Config) :
    ∀ (schedule : List Nat) (sys sys1 : System) (evs : List Event),
      run_schedule target_hash config schedule sys = some (sys1, evs) →
      evs.countP Event.is_result_store + stores_left sys1 = stores_left sys ∧
        evs.countP Event.is_claim + (if sys1.shared.found then 0 else 1) =
          (if sys.shared.found then 0 else 1) ∧
        (sys.shared.found = true → sys1.shared.found = true) := by
  intro schedule
  induction schedule with
  | nil =>
    intro sys sys1 evs h
    simp only [run_schedule, Option.some.injEq, Prod.mk.injEq] at h
    obtain ⟨rfl, rfl⟩ := h
    simp
  | cons k rest ih =>
    intro sys sys2 evs h
    obtain ⟨⟨sys1, ev⟩, hstep⟩ := system_step_total target_hash config k sys
    obtain ⟨⟨sys3, evs1⟩, hrun⟩ := run_schedule_total target_hash config rest sys1
    simp only [run_schedule, hstep, hrun, Option.some.injEq, Prod.mk.injEq] at h
    obtain ⟨rfl, rfl⟩ := h
    obtain ⟨hmono, hclaim, _, hbal⟩ :=
      system_step_effect target_hash config k sys sys1 ev hstep
    obtain ⟨hstores, hclaims, hmono1⟩ := ih sys1 sys3 evs1 hrun
    refine ⟨?_, ?_, fun hf => hmono1 (hmono hf)⟩
    · simp only [List.countP_cons]
      omega
    · simp only [List.countP_cons]
      have hone : (if ev.is_claim = true then 1 else 0) +
          (if sys1.shared.found then 0 else 1) = (if sys.shared.found then 0 else 1) := by
        cases hc : ev.is_claim with
        | true =>
          obtain ⟨h0, h1⟩ := hclaim.mp hc
          simp [h0, h1]
        | false =>
          cases hf : sys.shared.found with
          | true => simp [hmono hf]
          | false =>
            cases hf1 : sys1.shared.found with
            | true =>
              have := hclaim.mpr ⟨hf, hf1⟩
              rw [hc] at this; cases this
            | false => simp
      omega

theorem worker_run_done (target_hash : Nat) (config : Config) :
    ∀ (n : Nat) (s : SearchState),
      worker_run target_hash config n s Worker.done = some (s, Worker.done) := by
  intro n
  induction n with
  | zero => intro s; rfl
  | succ n ih => intro s; simp only [worker_run, worker_step, ih]

/-- A worker alone in its checking loop ends in the state that
`check_results` gives, with `progress_counter` stored unless the loop
returned at a match. -/
theorem worker_run_checking (target_hash : Nat) (config : Config) (b : Nat)
    (hashes : Fin 16 → Nat) :
    ∀ (lanes : List (Fin 16)) (s : SearchState) (n : Nat), lanes.length + 1 ≤ n →
      worker_run target_hash config n s (Worker.checking b hashes lanes) =
        match check_results target_hash config b hashes lanes s with
        | (s1, true) => some (s1, Worker.done)
        | (s1, false) => some ({ s1 with progress_counter := b }, Worker.done) := by
  intro lanes
  induction lanes with
  | nil =>
    intro s n hn
    obtain ⟨m, rfl⟩ : ∃ m, n = m + 1 := ⟨n - 1, by simp at hn; omega⟩
    simp only [worker_run, worker_step, worker_run_done, check_results]
  | cons i rest ih =>
    intro s n hn
    obtain ⟨m, rfl⟩ : ∃ m, n = m + 1 := ⟨n - 1, by omega⟩
    have hm : rest.length + 1 ≤ m := by simp only [List.length_cons] at hn; omega
    by_cases hout : (b + i.val) % 2 ^ 64 ≥ config.end_range
    · rw [check_results_cons_out _ _ _ _ _ _ _ hout]
      simp only [worker_run, worker_step]
      rw [if_pos hout]
      simp only [worker_run_done]
    · by_cases hhash : hashes i = target_hash
      · have hbeq : (hashes i == target_hash) = true := beq_iff_eq.mpr hhash
        cases hf : s.found with
        | false =>
          obtain ⟨m1, rfl⟩ : ∃ m1, m = m1 + 1 := ⟨m - 1, by omega⟩
          rw [check_results_cons_claim _ _ _ _ _ _ _ hout hhash hf]
          simp only [worker_run, worker_step]
          rw [if_neg hout, if_pos hbeq]
          simp only [hf, Bool.not_false, if_true, worker_run, worker_step, worker_run_done]
        | true =>
          have hsame : ({ s with found := true } : SearchState) = s := by
            cases s; simp only [SearchState.mk.injEq] at *; simp [hf]
          rw [check_results_of_found _ _ _ _ _ s hf]
          simp only [worker_run, worker_step]
          rw [if_neg hout, if_pos hbeq]
          simp only [hf, Bool.not_true, Bool.false_eq_true, if_false, hsame]
          rw [ih s m hm, check_results_of_found _ _ _ _ _ s hf]
          simp [hf]
      · have hbeq : ¬ (hashes i == target_hash) = true := fun h => hhash (beq_iff_eq.mp h)
        rw [check_results_cons_skip _ _ _ _ _ _ _ hout hhash]
        simp only [worker_run, worker_step]
        rw [if_neg hout, if_neg hbeq]
        exact ih s m hm

/-- A worker that runs alone from the start of the lambda to its return
leaves the atomics as `process_batch` gives them. -/
theorem worker_run_alone (target_hash : Nat) (config : Config) (s : SearchState)
    (b n : Nat) (hn : 18 ≤ n) :
    worker_run target_hash config n s (Worker.ready b) =
      (process_batch target_hash config s b).map (fun s1 => (s1, Worker.done)) := by
  obtain ⟨m, rfl⟩ : ∃ m, n = m + 1 := ⟨n - 1, by omega⟩
  obtain ⟨hashes, hbatch, _⟩ := hash_batch_lane (prepare_batch config b)
  cases hf : s.found with
  | true =>
    simp only [worker_run, worker_step, hf, if_true, worker_run_done,
      process_batch_found _ _ _ _ hf, Option.map_some']
  | false =>
    simp only [worker_run, worker_step, hf, hbatch, process_batch]
    simp only [Bool.false_eq_true, if_false]
    rw [worker_run_checking target_hash config b hashes (List.finRange 16) s m
      (by simp; omega)]
    cases check_results target_hash config b hashes (List.finRange 16) s with
    | mk s1 flag => cases flag <;> rfl

theorem stores_left_initial (batch_starts : List Nat) :
    stores_left (initial_system batch_starts) = 1 := by
  have hzero : (batch_starts.map Worker.ready).countP Worker.is_storing = 0 := by
    rw [List.countP_eq_zero]
    intro w hw
    obtain ⟨b, _, rfl⟩ := List.mem_map.mp hw
    simp [Worker.is_storing]
  simp only [stores_left, initial_system, hzero]
  rfl

/-- An execution in which two workers overlap, on the range `[0, 32)` with
the target `fnv1a_hash_digits 5`: the worker of the batch at 16 loads
`found` as false, then the worker of the batch at 0 runs to its return and
claims the value 5, then the first one compares its sixteen lanes and stores
`progress_counter` after the match.  One exchange found `found` false and
`result_value` was stored once. -/
theorem overlapping_workers_example :
    fnv1a_hash_digits 5 = some 806133968 ∧
      (run_schedule 806133968 { start_range := 0, end_range := 32 }
          ([1] ++ List.replicate 8 0 ++ List.replicate 17 1)
          (initial_system [0, 16])).map
        (fun r => (r.1.shared, r.2.countP Event.is_claim,
          r.2.countP Event.is_result_store, r.2.getLast?)) =
      some ({ found := true, result_value := 5, progress_counter := 16 }, 1, 1,
        some (Event.progress_stored 16)) := by
  refine ⟨by decide, by decide⟩

/-- C11: the first match is written once, in every execution in which the
workers of the batches interleave at their atomic operations.  A worker that
loads `found` as true returns at once, with the atomics unchanged and no
hash computed (the lambda returns its state for every hasher); a worker
alone does what the lambda does; in every step `found` stays true once it is
true, it turns true exactly in an exchange that found it false, and
`result_value` changes only in a `result_value.store`; and for every list of
batch starts and every schedule of the workers the execution exists, at most
one exchange finds `found` false, `result_value` is stored at most once, and
not more often than `found` turned true. -/
theorem first_match_write_once (target_hash : Nat) (config : Config)
    (batch_starts schedule : List Nat) :
    (∀ s b, s.found = true →
        worker_step target_hash config s (Worker.ready b) =
          some (s, Worker.done, Event.skipped b)) ∧
      (∀ hasher s b, s.found = true →
        process_batch_with hasher target_hash config s b = some s) ∧
      (∀ s b, process_batch target_hash config s b =
        process_batch_with hash_batch target_hash config s b) ∧
      (∀ s b n, 18 ≤ n →
        worker_run target_hash config n s (Worker.ready b) =
          (process_batch target_hash config s b).map (fun s1 => (s1, Worker.done))) ∧
      (∀ k sys sys1 ev, system_step target_hash config k sys = some (sys1, ev) →
        (sys.shared.found = true → sys1.shared.found = true) ∧
        (ev.is_claim = true ↔ sys.shared.found = false ∧ sys1.shared.found = true) ∧
        (ev.is_result_store = false →
          sys1.shared.result_value = sys.shared.result_value)) ∧
      ∃ sys evs,
        run_schedule target_hash config schedule (initial_system batch_starts) =
          some (sys, evs) ∧
        evs.countP Event.is_claim ≤ 1 ∧
        evs.countP Event.is_result_store ≤ 1 ∧
        evs.countP Event.is_result_store ≤ evs.countP Event.is_claim := by
  refine ⟨?_, ?_, ?_, ?_, ?_, ?_⟩
  · intro s b hs
    simp only [worker_step, hs, if_true]
  · intro hasher s b hs
    simp [process_batch_with, hs]
  · intro s b; rfl
  · intro s b n hn
    exact worker_run_alone target_hash config s b n hn
  · intro k sys sys1 ev h
    obtain ⟨h1, h2, h3, _⟩ := system_step_effect target_hash config k sys sys1 ev h
    exact ⟨h1, h2, h3⟩
  · obtain ⟨⟨sys, evs⟩, hrun⟩ :=
      run_schedule_total target_hash config schedule (initial_system batch_starts)
    obtain ⟨hstores, hclaims, _⟩ :=
      run_schedule_balance target_hash config schedule _ sys evs hrun
    rw [stores_left_initial] at hstores
    have hinit : (if (initial_system batch_starts).shared.found then 0 else 1) = 1 := rfl
    rw [hinit] at hclaims
    have hleft : stores_left sys =
        sys.workers.countP Worker.is_storing + (if sys.shared.found then 0 else 1) := rfl
    refine ⟨sys, evs, hrun, by omega, by omega, by omega⟩

end HashFinder
